import Mathlib

/-!
# Verification of `sensors.h` (muwerk scheduler library)

Shallow embedding of `ustd::sensorprocessor` and `ustd::numericFunction<T_FLOAT>` from
`src/libraries/Muwerk_scheduler_library/sensors.h`.

The file holds two embeddings of the same source lines. The first computes in exact
arithmetic: it decides what the code does when no result is rounded, no word wraps around
and no value is NaN. The second (section "The same code in machine arithmetic") rounds
every floating-point operation, knows NaN and lets words wrap around: it shows on concrete
inputs where the program parts from exact arithmetic.

Modelling decisions of the exact embedding.

* `T_FLOAT` is taken to be the rationals: all results are about exact arithmetic.
* A floating-point division by zero has no rational value, so a function that divides
  returns `Option ℚ`, and `none` stands for "no finite number comes out".
* The `while` loop of `linsearch` runs on fuel; running out of fuel is `none` as well.
* `int` is modelled by `Int` and `unsigned int` by `Nat`, without wrap-around: the sums
  `a + b` of `linsearch` stay below twice the table length.
* Values that the C++ code reads without having written them are indeterminate; they are
  collected in `Indeterminate` and every definition takes them as a parameter.
* `double` in `sensorprocessor` is the rationals as well. `unsigned int` and
  `unsigned long` are `Nat` without wrap-around: counters and clock readings stay below
  the word size, and so does `pollTimeSec * 1000`.
* `millis()` is an input: every call of `filter`, `reset`, `update` and of the constructor
  gets the clock reading at which it runs, and the clock does not advance within a call.
-/

/-- Values that the program may read although it never wrote them. -/
structure Indeterminate where
  /-- Content of an array cell at an index at or beyond the array length. -/
  cell : ℚ
  /-- Content of `numericFunction::dir` before the constructor assigns it. -/
  dir : Bool
  /-- Content of `minX` before the constructor assigns it. -/
  minX : ℚ
  /-- Content of `minY` before the constructor assigns it. -/
  minY : ℚ
  /-- Content of `maxX` before the constructor assigns it. -/
  maxX : ℚ
  /-- Content of `maxY` before the constructor assigns it. -/
  maxY : ℚ
  /-- Content of the local `newMinX` of `rescale` before its loop assigns it. -/
  newMinX : ℚ
  /-- Content of the local `newMaxX` of `rescale` before its loop assigns it. -/
  newMaxX : ℚ
  /-- Content of `sensorprocessor::last` before `reset` assigns it. -/
  last : Nat

namespace ustd

/-- Modelled from the spec: the array container `ustd::array` (`ustd_array.h` is not among
the sources), "a fixed- or auto-growing indexable sequence of a numeric element type".
An array is the list of the elements written so far; reading index `i` below the length
gives the stored element, and reading any other index gives the indeterminate `cell`.
A read leaves the array as it is, and `length()` is the length of the list. -/
def array.read (u : Indeterminate) (ar : List ℚ) (i : Nat) : ℚ :=
  ar.getD i u.cell

/-- Modelled from the spec: assignment `ar[i] = v` of the array container `ustd::array`
(`ustd_array.h` is not among the sources). Writing below the length replaces the element;
writing at or beyond the length grows the array up to index `i`, the cells in between
holding the indeterminate `cell`. -/
def array.write (u : Indeterminate) (ar : List ℚ) (i : Nat) (v : ℚ) : List ℚ :=
  if i < ar.length then ar.set i v
  else ar ++ List.replicate (i - ar.length) u.cell ++ [v]

/-- Division of two `T_FLOAT` values; `none` when the divisor is zero. -/
def fdiv (a b : ℚ) : Option ℚ :=
  if b = 0 then none else some (a / b)

end ustd

/-- The data members of `numericFunction<T_FLOAT>` (sensors.h, lines 215-219). -/
structure NumericFunction where
  x : List ℚ
  y : List ℚ
  minX : ℚ
  minY : ℚ
  maxX : ℚ
  maxY : ℚ
  len : Nat
  dir : Bool
  extrapolate : Bool
deriving DecidableEq

set_option linter.dupNamespace false

namespace numericFunction

open ustd

/-- Lines 246-256 of the constructor loop: the pair `(px[i], py[i])` is stored at index
`len`, the four bounds are updated from the stored cells, and `len` is incremented. -/
def ctorStore (u : Indeterminate) (px py : Nat → ℚ) (t1 : NumericFunction) (i : Nat) :
    NumericFunction :=
  let t2 : NumericFunction :=
    { t1 with x := array.write u t1.x t1.len (px i),
              y := array.write u t1.y t1.len (py i) }
  let t3 : NumericFunction :=
    if i = 0 ∨ t2.minX > array.read u t2.x t2.len then
      { t2 with minX := array.read u t2.x t2.len }
    else t2
  let t4 : NumericFunction :=
    if i = 0 ∨ t3.minY > array.read u t3.y t3.len then
      { t3 with minY := array.read u t3.y t3.len }
    else t3
  let t5 : NumericFunction :=
    if i = 0 ∨ t4.maxX < array.read u t4.x t4.len then
      { t4 with maxX := array.read u t4.x t4.len }
    else t4
  let t6 : NumericFunction :=
    if i = 0 ∨ t5.maxY < array.read u t5.y t5.len then
      { t5 with maxY := array.read u t5.y t5.len }
    else t5
  { t6 with len := t6.len + 1 }

/-- Body of the constructor loop for index `i` (sensors.h, lines 234-256). A `continue`
leaves the table as it is at that point. For `i > 0` the table holds at least the first
point, so the unsigned `len - 1` does not wrap. -/
def ctorBody (u : Indeterminate) (px py : Nat → ℚ) (t : NumericFunction) (i : Nat) :
    NumericFunction :=
  if i > 0 ∧ px i ≤ array.read u t.x (t.len - 1) then t
  else if i > 0 ∧ py i = array.read u t.y (t.len - 1) then t
  else
    let t1 : NumericFunction :=
      if i > 0 ∧ t.len = 1 then
        { t with dir := decide (py i > array.read u t.y (t.len - 1)) }
      else t
    if i > 0 ∧ decide (py i > array.read u t1.y (t1.len - 1)) ≠ t1.dir then t1
    else ctorStore u px py t1 i

/-- The object before the constructor loop: `x` and `y` are empty arrays, `extrapolate`
and `len` are assigned (lines 231-232), the other members are not yet written. -/
def ctorInit (u : Indeterminate) ( extrapolate : Bool) : NumericFunction :=
  { x := [], y := [], minX := u.minX, minY := u.minY, maxX := u.maxX, maxY := u.maxY,
    len := 0, dir := u.dir, extrapolate := extrapolate }

/-- The constructor `numericFunction(px, py, count, _extrapolate)` (sensors.h,
lines 220-258): the loop body is run for `i = 0, ..., count - 1`. The C arrays `px` and
`py` are the memory behind the two pointers, indexed by position. -/
def numericFunction (u : Indeterminate) (px py : Nat → ℚ) (count : Nat)
    ( extrapolate : Bool) : NumericFunction :=
  (List.range count).foldl (ctorBody u px py) (ctorInit u extrapolate)

/-- Loop body of `rescale` for index `i` (sensors.h, lines 309-314) on the state
`(array, newMinX, newMaxX)`. -/
def rescaleBody (u : Indeterminate) (pminX dx ndx newMin : ℚ)
    (s : List ℚ × ℚ × ℚ) (i : Nat) : List ℚ × ℚ × ℚ :=
  let xi := array.read u s.1 i
  let par := array.write u s.1 i ((xi - pminX) / dx * ndx + newMin)
  let newMinX := if i = 0 ∨ s.2.1 > xi then xi else s.2.1
  let newMaxX := if i = 0 ∨ s.2.2 < xi then xi else s.2.2
  (par, newMinX, newMaxX)

/-- The static `rescale(par, pminX, pmaxX, newMin, newMax)` (sensors.h, lines 284-318).
The three values behind the pointers go in, and their values on return come out.
The divisor `dx` is `1` or a difference of two distinct numbers, so the division is that
of the rationals. -/
def rescale (u : Indeterminate) (par : List ℚ) (pminX pmaxX newMin newMax : ℚ) :
    List ℚ × ℚ × ℚ :=
  let len := par.length
  let dx : ℚ := if len < 2 ∨ pminX = pmaxX then 1 else pmaxX - pminX
  let ndx := newMax - newMin
  (List.range len).foldl (rescaleBody u pminX dx ndx newMin) (par, u.newMinX, u.newMaxX)

/-- The member `rescaleX(newMin, newMax)` (sensors.h, lines 320-327). -/
def rescaleX (u : Indeterminate) (t : NumericFunction) (newMin newMax : ℚ) :
    NumericFunction :=
  let r := rescale u t.x t.minX t.maxX newMin newMax
  { t with x := r.1, minX := r.2.1, maxX := r.2.2 }

/-- The member `rescaleY(newMin, newMax)` (sensors.h, lines 328-335). -/
def rescaleY (u : Indeterminate) (t : NumericFunction) (newMin newMax : ℚ) :
    NumericFunction :=
  let r := rescale u t.y t.minY t.maxY newMin newMax
  { t with y := r.1, minY := r.2.1, maxY := r.2.2 }

/-- The `while (b - a > 1)` loop of `linsearch` (sensors.h, lines 347-356), on fuel.
The quotient `(a + b) / 2` is the truncating division of C. -/
def linsearchLoop (u : Indeterminate) (ar : List ℚ) (x : ℚ) : Nat → Int → Int → Option Int
  | 0, _, _ => none
  | fuel + 1, a, b =>
    if b - a > 1 then
      let n := Int.tdiv (a + b) 2
      if array.read u ar n.toNat = x then some n
      else if x > array.read u ar n.toNat then linsearchLoop u ar x fuel n b
      else linsearchLoop u ar x fuel a n
    else some a

/-- The static `linsearch(ar, x)` (sensors.h, lines 337-357). The loop gets as much fuel
as the array has elements, plus one. -/
def linsearch (u : Indeterminate) (ar : List ℚ) (x : ℚ) : Option Int :=
  linsearchLoop u ar x (ar.length + 1) 0 ((ar.length : Int) - 1)

/-- The member `interpol(xi)` (sensors.h, lines 359-396). -/
def interpol (u : Indeterminate) (t : NumericFunction) (xi : ℚ) : Option ℚ :=
  if t.len = 0 then some 0
  else if t.len = 1 then some (array.read u t.x 0)
  else if xi < t.minX then
    if !t.extrapolate then some (array.read u t.y 0)
    else
      let dx1 := array.read u t.x 0 - xi
      let dx2 := array.read u t.x 1 - array.read u t.x 0
      let dy := array.read u t.y 1 - array.read u t.y 0
      (fdiv dy dx2).map (fun q => array.read u t.y 0 - q * dx1)
  else if xi > t.maxX then
    if !t.extrapolate then some (array.read u t.y (t.len - 1))
    else
      let dx1 := array.read u t.x (t.len - 1) - array.read u t.x t.len
      let dx2 := xi - array.read u t.x (t.len - 1)
      let dy := array.read u t.y (t.len - 1) - array.read u t.y (t.len - 2)
      (fdiv dy dx1).map (fun q => array.read u t.y (t.len - 1) + q * dx2)
  else
    match linsearch u t.x xi with
    | none => none
    | some r =>
      let n : Nat := r.toNat
      if n ≥ t.len - 1 then some (array.read u t.y (t.len - 1))
      else
        let dx1 := array.read u t.x n - array.read u t.x (n + 1)
        let dx2 := xi - array.read u t.x n
        let dy := array.read u t.y (n + 1) - array.read u t.y n
        (fdiv dy dx1).map (fun q => array.read u t.y n - q * dx2)

/-- The table of the documentation example (sensors.h, lines 173-176):
the points (0,9), (1,3), (2,2.8), (3,1). -/
def cx (i : Nat) : ℚ := [0, 1, 2, 3].getD i 0

/-- The y-values of the documentation example. -/
def cy (i : Nat) : ℚ := [9, 3, 14 / 5, 1].getD i 0

/-- Indeterminate values that are all zero. -/
def zeroed : Indeterminate :=
  { cell := 0, dir := false, minX := 0, minY := 0, maxX := 0, maxY := 0,
    newMinX := 0, newMaxX := 0, last := 0 }

end numericFunction


namespace numericFunction

open ustd

/-- The pairs `(px[0], py[0]), ..., (px[n-1], py[n-1])` handed to the constructor. -/
def inputPairs (px py : Nat → ℚ) (n : Nat) : List (ℚ × ℚ) :=
  (List.range n).map (fun i => (px i, py i))

/-- State of the table after the constructor loop has run for `i = 0, ..., n - 1`,
with `n ≥ 1`. -/
structure Built (u : Indeterminate) (px py : Nat → ℚ) (n : Nat) (t : NumericFunction) :
    Prop where
  lenx : t.x.length = t.len
  leny : t.y.length = t.len
  pos : 1 ≤ t.len
  le : t.len ≤ n
  xs : t.x.Pairwise (· < ·)
  ysUp : t.dir = true ∨ t.len = 1 → t.y.Pairwise (· < ·)
  ysDown : t.dir = false ∨ t.len = 1 → t.y.Pairwise (· > ·)
  minx : t.minX = array.read u t.x 0
  maxx : t.maxX = array.read u t.x (t.len - 1)
  miny : t.minY ∈ t.y ∧ ∀ a ∈ t.y, t.minY ≤ a
  maxy : t.maxY ∈ t.y ∧ ∀ a ∈ t.y, a ≤ t.maxY
  sub : List.Sublist (List.zip t.x t.y) (inputPairs px py n)
  first : array.read u t.x 0 = px 0 ∧ array.read u t.y 0 = py 0
  full : t.len = n → t.x = (List.range n).map px ∧ t.y = (List.range n).map py

end numericFunction

/-- The constant `SENSOR_VALUE_INVALID` (sensors.h, line 7). -/
def SENSOR_VALUE_INVALID : ℚ := -999999

namespace ustd

/-- Modelled from the spec: `timeDiff(first, second)` of the platform header
(`ustd_platform.h` is not among the sources), the "elapsed(since, now) → duration" of the
clock collaborator. Clock readings count milliseconds without wrap-around, so the duration
from an earlier reading to a later one is their difference. -/
def timeDiff (first second : Nat) : Nat :=
  second - first

end ustd

/-- The data members of `sensorprocessor` (sensors.h, lines 52-60). -/
structure Sensorprocessor where
  noVals : Nat
  smoothInterval : Nat
  pollTimeSec : Nat
  sum : ℚ
  eps : ℚ
  first : Bool
  meanVal : ℚ
  lastVal : ℚ
  last : Nat
deriving DecidableEq

namespace sensorprocessor

open ustd

/-- The member `reset()` (sensors.h, lines 134-142), run at the clock reading `now`. -/
def reset (s : Sensorprocessor) (now : Nat) : Sensorprocessor :=
  { s with noVals := 0, sum := 0, first := true, meanVal := 0,
           lastVal := SENSOR_VALUE_INVALID, last := now }

/-- The constructor `sensorprocessor(smoothInterval, pollTimeSec, eps)` (sensors.h,
lines 62-75), run at the clock reading `now`: the default member initialisers and the
initialiser list, then `reset()`. -/
def sensorprocessor (u : Indeterminate) (smoothInterval pollTimeSec : Nat) (eps : ℚ)
    (now : Nat) : Sensorprocessor :=
  reset
    { noVals := 0, smoothInterval := smoothInterval, pollTimeSec := pollTimeSec, sum := 0,
      eps := eps, first := true, meanVal := 0, lastVal := SENSOR_VALUE_INVALID,
      last := u.last }
    now

/-- The member `update(_smoothInterval, _pollTimeSec, _eps)` (sensors.h, lines 144-162),
run at the clock reading `now`. -/
def update (s : Sensorprocessor) (smoothInterval pollTimeSec : Nat) (eps : ℚ) (now : Nat) :
    Sensorprocessor :=
  reset { s with smoothInterval := smoothInterval, pollTimeSec := pollTimeSec, eps := eps } now

/-- The member `filter(double *pvalue)` (sensors.h, lines 77-113), run at the clock
reading `now`. The result is the return value, the value behind `pvalue` on return, and
the object on return. The divisor `noVals + 1` is positive, so the division is that of
the rationals. -/
def filter (s : Sensorprocessor) (pvalue : ℚ) (now : Nat) : Bool × ℚ × Sensorprocessor :=
  let meanVal : ℚ := (s.meanVal * s.noVals + pvalue) / (s.noVals + 1)
  let noVals : Nat := if s.noVals < s.smoothInterval then s.noVals + 1 else s.noVals
  let delta0 : ℚ := s.lastVal - meanVal
  let delta : ℚ := if delta0 < 0 then (-1) * delta0 else delta0
  if delta > s.eps ∨ s.first = true then
    (true, meanVal,
      { s with meanVal := meanVal, noVals := noVals, first := false, lastVal := meanVal,
               last := now })
  else if s.pollTimeSec ≠ 0 ∧ timeDiff s.last now > s.pollTimeSec * 1000 then
    (true, meanVal,
      { s with meanVal := meanVal, noVals := noVals, last := now, lastVal := meanVal })
  else (false, pvalue, { s with meanVal := meanVal, noVals := noVals })

/-- The conversion `(long)tval` of a finite value in the range of `long`: the fraction is
cut off, towards zero. -/
def toLong (tval : ℚ) : Int :=
  Int.tdiv tval.num tval.den

/-- The member `filter(long *plvalue)` (sensors.h, lines 115-132), run at the clock
reading `now`. -/
def filterLong (s : Sensorprocessor) (plvalue : Int) (now : Nat) :
    Bool × Int × Sensorprocessor :=
  let tval : ℚ := plvalue
  let r := filter s tval now
  if r.1 = true then (true, toLong r.2.1, r.2.2) else (false, plvalue, r.2.2)

/-- A caller that runs `filter` once for every pair of a raw value and a clock reading,
in order. The result lists the return value and the caller's value after each call, and
gives the object after the last call. -/
def filterAll (s : Sensorprocessor) : List (ℚ × Nat) → List (Bool × ℚ) × Sensorprocessor
  | [] => ([], s)
  | c :: rest =>
    (((filter s c.1 c.2).1, (filter s c.1 c.2).2.1) ::
        (filterAll (filter s c.1 c.2).2.2 rest).1,
      (filterAll (filter s c.1 c.2).2.2 rest).2)

/-- One call of either overload of `filter`. -/
inductive Call where
  | double (value : ℚ) (now : Nat)
  | long (value : Int) (now : Nat)

/-- The object after one call of either overload. -/
def call (s : Sensorprocessor) : Call → Sensorprocessor
  | Call.double value now => (filter s value now).2.2
  | Call.long value now => (filterLong s value now).2.2

end sensorprocessor

/-! ## The same code in machine arithmetic

The definitions above compute in the rationals. The definitions of this section follow
the same source lines with the arithmetic of the machine: floating-point numbers with
a significand of `p` bits (53 for `double`, 24 for `float`), every operation rounded to
the nearest such number with ties to even, and NaN, which compares false with everything.
The exponent range is not bounded, so there is no overflow and no underflow, and an
infinity is not modelled: a division by zero gives NaN. Words of the machine wrap around.
-/

namespace machine

/-- A floating-point value: a number or NaN. -/
inductive Num where
  | num (q : ℚ)
  | nan
deriving DecidableEq

/-- Number of halvings that take `n` below two, on fuel. -/
def halvings : Nat → Nat → Nat
  | 0, _ => 0
  | fuel + 1, n => if 2 ≤ n then halvings fuel (n / 2) + 1 else 0

/-- The binary logarithm of a natural number, rounded down (zero for zero). -/
def log2 (n : Nat) : Nat :=
  halvings n n

/-- Exponent of the leading bit of a rational that is not zero: the binary logarithm of
its absolute value, rounded down. The difference of the logarithms of numerator and
denominator is that exponent or one more. -/
def exponent (q : ℚ) : Int :=
  if (2 : ℚ) ^ ((log2 q.num.natAbs : Int) - (log2 q.den : Int)) ≤ |q| then
    (log2 q.num.natAbs : Int) - (log2 q.den : Int)
  else (log2 q.num.natAbs : Int) - (log2 q.den : Int) - 1

/-- The nearest integer, and of two nearest integers the even one. -/
def nearestEven (q : ℚ) : Int :=
  if q - Rat.floor q < 1 / 2 then Rat.floor q
  else if 1 / 2 < q - Rat.floor q then Rat.floor q + 1
  else if Rat.floor q % 2 = 0 then Rat.floor q
  else Rat.floor q + 1

/-- Rounding to the nearest number with `p` significant bits, ties to even. -/
def round (p : Nat) (q : ℚ) : ℚ :=
  if q = 0 then 0
  else
    (nearestEven (q * 2 ^ ((p : Int) - 1 - exponent q)) : ℚ) /
      2 ^ ((p : Int) - 1 - exponent q)

/-- The sum of two values in `p` bits. -/
def Num.add (p : Nat) : Num → Num → Num
  | Num.num a, Num.num b => Num.num (round p (a + b))
  | _, _ => Num.nan

/-- The difference of two values in `p` bits. -/
def Num.sub (p : Nat) : Num → Num → Num
  | Num.num a, Num.num b => Num.num (round p (a - b))
  | _, _ => Num.nan

/-- The product of two values in `p` bits. -/
def Num.mul (p : Nat) : Num → Num → Num
  | Num.num a, Num.num b => Num.num (round p (a * b))
  | _, _ => Num.nan

/-- The quotient of two values in `p` bits; NaN for a divisor zero. -/
def Num.div (p : Nat) : Num → Num → Num
  | Num.num a, Num.num b => if b = 0 then Num.nan else Num.num (round p (a / b))
  | _, _ => Num.nan

/-- The comparison `a < b`: false when an operand is NaN. -/
def Num.lt : Num → Num → Bool
  | Num.num a, Num.num b => decide (a < b)
  | _, _ => false

/-- The comparison `a <= b`: false when an operand is NaN. -/
def Num.le : Num → Num → Bool
  | Num.num a, Num.num b => decide (a ≤ b)
  | _, _ => false

/-- The comparison `a == b`: false when an operand is NaN. -/
def Num.eq : Num → Num → Bool
  | Num.num a, Num.num b => decide (a = b)
  | _, _ => false

/-- Conversion of a value to `float`, as in the store to `float yi`. -/
def Num.toFloat : Num → Num
  | Num.num a => Num.num (round 24 a)
  | Num.nan => Num.nan

/-- Conversion of an unsigned integer to `double`. -/
def Num.ofNat (n : Nat) : Num :=
  Num.num (round 53 n)

/-- The number of bits of `unsigned int` and of `long` and `unsigned long`. -/
structure Widths where
  uint : Nat
  long : Nat

/-- The widths on the 32-bit controller of the node-MCU board. -/
def nodeMCU : Widths :=
  ⟨32, 32⟩

/-- Modelled from the spec: `timeDiff(first, second)` of the platform header
(`ustd_platform.h` is not among the sources), "correct across counter wraparound": the
counter of `millis()` runs modulo two to the number of bits of `unsigned long`. -/
def timeDiff (W : Widths) (first second : Nat) : Nat :=
  if first ≤ second then second - first else 2 ^ W.long - first + second

/-- The data members of `sensorprocessor` (sensors.h, lines 52-60), in machine
arithmetic. -/
structure Sensorprocessor where
  noVals : Nat
  smoothInterval : Nat
  pollTimeSec : Nat
  sum : Num
  eps : Num
  first : Bool
  meanVal : Num
  lastVal : Num
  last : Nat
deriving DecidableEq

/-- Values that the program may read although it never wrote them, in machine
arithmetic. -/
structure Indeterminate where
  cell : Num
  dir : Bool
  minX : Num
  minY : Num
  maxX : Num
  maxY : Num
  newMinX : Num
  newMaxX : Num

/-- Modelled from the spec: reading `ar[i]` of the array container `ustd::array`
(`ustd_array.h` is not among the sources), as in the exact embedding. -/
def read (u : Indeterminate) (ar : List Num) (i : Nat) : Num :=
  ar.getD i u.cell

/-- Modelled from the spec: the assignment `ar[i] = v` of the array container
`ustd::array` (`ustd_array.h` is not among the sources), as in the exact embedding. -/
def write (u : Indeterminate) (ar : List Num) (i : Nat) (v : Num) : List Num :=
  if i < ar.length then ar.set i v
  else ar ++ List.replicate (i - ar.length) u.cell ++ [v]

/-- The data members of `numericFunction<T_FLOAT>` (sensors.h, lines 215-219), in
machine arithmetic. -/
structure NumericFunction where
  x : List Num
  y : List Num
  minX : Num
  minY : Num
  maxX : Num
  maxY : Num
  len : Nat
  dir : Bool
  extrapolate : Bool
deriving DecidableEq

namespace sensorprocessor

/-- The member `reset()` (sensors.h, lines 134-142), run at the clock reading `now`. -/
def reset (s : Sensorprocessor) (now : Nat) : Sensorprocessor :=
  { s with noVals := 0, sum := Num.num 0, first := true, meanVal := Num.num 0,
           lastVal := Num.num (-999999), last := now }

/-- The constructor (sensors.h, lines 62-75), run at the clock reading `now`; `last0` is
what `last` holds before `reset` assigns it. -/
def sensorprocessor (smoothInterval pollTimeSec : Nat) (eps : Num) (last0 now : Nat) :
    Sensorprocessor :=
  reset
    { noVals := 0, smoothInterval := smoothInterval, pollTimeSec := pollTimeSec,
      sum := Num.num 0, eps := eps, first := true, meanVal := Num.num 0,
      lastVal := Num.num (-999999), last := last0 }
    now

/-- The member `filter(double *pvalue)` (sensors.h, lines 77-113) in machine arithmetic:
every operation on `double` is rounded to 53 bits, `noVals + 1` is taken in
`unsigned int`, and `pollTimeSec * 1000L` in `unsigned long`. -/
def filter (W : Widths) (s : Sensorprocessor) (pvalue : Num) (now : Nat) :
    Bool × Num × Sensorprocessor :=
  let meanVal : Num :=
    Num.div 53 (Num.add 53 (Num.mul 53 s.meanVal (Num.ofNat s.noVals)) pvalue)
      (Num.ofNat ((s.noVals + 1) % 2 ^ W.uint))
  let noVals : Nat := if s.noVals < s.smoothInterval then s.noVals + 1 else s.noVals
  let delta0 : Num := Num.sub 53 s.lastVal meanVal
  let delta : Num :=
    if Num.lt delta0 (Num.num 0) = true then Num.mul 53 (Num.num (-1)) delta0 else delta0
  if Num.lt s.eps delta = true ∨ s.first = true then
    (true, meanVal,
      { s with meanVal := meanVal, noVals := noVals, first := false, lastVal := meanVal,
               last := now })
  else if s.pollTimeSec ≠ 0 ∧
      timeDiff W s.last now > (s.pollTimeSec * 1000) % 2 ^ W.long then
    (true, meanVal,
      { s with meanVal := meanVal, noVals := noVals, last := now, lastVal := meanVal })
  else (false, pvalue, { s with meanVal := meanVal, noVals := noVals })

/-- A caller that runs `filter` once for every pair of a raw value and a clock reading,
in order, and lists the return value and the caller's value after each call. -/
def filterAll (W : Widths) (s : Sensorprocessor) : List (Num × Nat) → List (Bool × Num)
  | [] => []
  | c :: rest =>
    ((filter W s c.1 c.2).1, (filter W s c.1 c.2).2.1) ::
      filterAll W (filter W s c.1 c.2).2.2 rest

end sensorprocessor

namespace numericFunction

/-- Lines 246-256 of the constructor loop, in machine arithmetic. -/
def ctorStore (u : Indeterminate) (px py : Nat → Num) (t1 : NumericFunction) (i : Nat) :
    NumericFunction :=
  let t2 : NumericFunction :=
    { t1 with x := write u t1.x t1.len (px i), y := write u t1.y t1.len (py i) }
  let t3 : NumericFunction :=
    if i = 0 ∨ Num.lt (read u t2.x t2.len) t2.minX = true then
      { t2 with minX := read u t2.x t2.len }
    else t2
  let t4 : NumericFunction :=
    if i = 0 ∨ Num.lt (read u t3.y t3.len) t3.minY = true then
      { t3 with minY := read u t3.y t3.len }
    else t3
  let t5 : NumericFunction :=
    if i = 0 ∨ Num.lt t4.maxX (read u t4.x t4.len) = true then
      { t4 with maxX := read u t4.x t4.len }
    else t4
  let t6 : NumericFunction :=
    if i = 0 ∨ Num.lt t5.maxY (read u t5.y t5.len) = true then
      { t5 with maxY := read u t5.y t5.len }
    else t5
  { t6 with len := t6.len + 1 }

/-- Body of the constructor loop for index `i` (sensors.h, lines 234-256), in machine
arithmetic: the three tests are comparisons of floating-point values. -/
def ctorBody (u : Indeterminate) (px py : Nat → Num) (t : NumericFunction) (i : Nat) :
    NumericFunction :=
  if i > 0 ∧ Num.le (px i) (read u t.x (t.len - 1)) = true then t
  else if i > 0 ∧ Num.eq (py i) (read u t.y (t.len - 1)) = true then t
  else
    let t1 : NumericFunction :=
      if i > 0 ∧ t.len = 1 then { t with dir := Num.lt (read u t.y (t.len - 1)) (py i) }
      else t
    if i > 0 ∧ Num.lt (read u t1.y (t1.len - 1)) (py i) ≠ t1.dir then t1
    else ctorStore u px py t1 i

/-- The object before the constructor loop. -/
def ctorInit (u : Indeterminate) ( extrapolate : Bool) : NumericFunction :=
  { x := [], y := [], minX := u.minX, minY := u.minY, maxX := u.maxX, maxY := u.maxY,
    len := 0, dir := u.dir, extrapolate := extrapolate }

/-- The constructor (sensors.h, lines 220-258), in machine arithmetic. -/
def numericFunction (u : Indeterminate) (px py : Nat → Num) (count : Nat)
    ( extrapolate : Bool) : NumericFunction :=
  (List.range count).foldl (ctorBody u px py) (ctorInit u extrapolate)

/-- Loop body of `rescale` (sensors.h, lines 309-314), in `p` bits. -/
def rescaleBody (p : Nat) (u : Indeterminate) (pminX dx ndx newMin : Num)
    (s : List Num × Num × Num) (i : Nat) : List Num × Num × Num :=
  let xi := read u s.1 i
  let par :=
    write u s.1 i (Num.add p (Num.mul p (Num.div p (Num.sub p xi pminX) dx) ndx) newMin)
  let newMinX := if i = 0 ∨ Num.lt xi s.2.1 = true then xi else s.2.1
  let newMaxX := if i = 0 ∨ Num.lt s.2.2 xi = true then xi else s.2.2
  (par, newMinX, newMaxX)

/-- The static `rescale` (sensors.h, lines 284-318), in `p` bits. -/
def rescale (p : Nat) (u : Indeterminate) (par : List Num)
    (pminX pmaxX newMin newMax : Num) : List Num × Num × Num :=
  let len := par.length
  let dx : Num :=
    if len < 2 ∨ Num.eq pminX pmaxX = true then Num.num 1 else Num.sub p pmaxX pminX
  let ndx := Num.sub p newMax newMin
  (List.range len).foldl (rescaleBody p u pminX dx ndx newMin) (par, u.newMinX, u.newMaxX)

/-- The member `rescaleX` (sensors.h, lines 320-327), in `p` bits. -/
def rescaleX (p : Nat) (u : Indeterminate) (t : NumericFunction) (newMin newMax : Num) :
    NumericFunction :=
  let r := rescale p u t.x t.minX t.maxX newMin newMax
  { t with x := r.1, minX := r.2.1, maxX := r.2.2 }

/-- The loop of `linsearch` (sensors.h, lines 347-356), on fuel, in machine
arithmetic. -/
def linsearchLoop (u : Indeterminate) (ar : List Num) (x : Num) :
    Nat → Int → Int → Option Int
  | 0, _, _ => none
  | fuel + 1, a, b =>
    if b - a > 1 then
      if Num.eq (read u ar (Int.tdiv (a + b) 2).toNat) x = true then
        some (Int.tdiv (a + b) 2)
      else if Num.lt (read u ar (Int.tdiv (a + b) 2).toNat) x = true then
        linsearchLoop u ar x fuel (Int.tdiv (a + b) 2) b
      else linsearchLoop u ar x fuel a (Int.tdiv (a + b) 2)
    else some a

/-- The static `linsearch` (sensors.h, lines 337-357), in machine arithmetic. -/
def linsearch (u : Indeterminate) (ar : List Num) (x : Num) : Option Int :=
  linsearchLoop u ar x (ar.length + 1) 0 ((ar.length : Int) - 1)

/-- The member `interpol(xi)` (sensors.h, lines 359-396) for a `T_FLOAT` of `p` bits:
every operation is rounded to `p` bits, and on the last path the result is stored in
`float yi` (line 394) before it is returned. `none` stands for a search out of fuel. -/
def interpol (p : Nat) (u : Indeterminate) (t : NumericFunction) (xi : Num) : Option Num :=
  if t.len = 0 then some (Num.num 0)
  else if t.len = 1 then some (read u t.x 0)
  else if Num.lt xi t.minX = true then
    if !t.extrapolate then some (read u t.y 0)
    else
      some (Num.sub p (read u t.y 0)
        (Num.mul p
          (Num.div p (Num.sub p (read u t.y 1) (read u t.y 0))
            (Num.sub p (read u t.x 1) (read u t.x 0)))
          (Num.sub p (read u t.x 0) xi)))
  else if Num.lt t.maxX xi = true then
    if !t.extrapolate then some (read u t.y (t.len - 1))
    else
      some (Num.add p (read u t.y (t.len - 1))
        (Num.mul p
          (Num.div p (Num.sub p (read u t.y (t.len - 1)) (read u t.y (t.len - 2)))
            (Num.sub p (read u t.x (t.len - 1)) (read u t.x t.len)))
          (Num.sub p xi (read u t.x (t.len - 1)))))
  else
    match linsearch u t.x xi with
    | none => none
    | some r =>
      if r.toNat ≥ t.len - 1 then some (read u t.y (t.len - 1))
      else
        some (Num.toFloat
          (Num.sub p (read u t.y r.toNat)
            (Num.mul p
              (Num.div p (Num.sub p (read u t.y (r.toNat + 1)) (read u t.y r.toNat))
                (Num.sub p (read u t.x r.toNat) (read u t.x (r.toNat + 1))))
              (Num.sub p xi (read u t.x r.toNat)))))

end numericFunction

/-- Indeterminate values that are all zero. -/
def zeroed : Indeterminate :=
  { cell := Num.num 0, dir := false, minX := Num.num 0, minY := Num.num 0,
    maxX := Num.num 0, maxY := Num.num 0, newMinX := Num.num 0, newMaxX := Num.num 0 }

/-- The value of type `double` nearest to a rational. -/
def double (q : ℚ) : Num :=
  Num.num (round 53 q)

/-- A C array that holds the listed values; what lies behind them is not read. -/
def carray (values : List Num) (i : Nat) : Num :=
  values.getD i Num.nan

/-- The value of type `float` nearest to a rational. -/
def single (q : ℚ) : Num :=
  Num.num (round 24 q)

end machine

/-! ## Arrays -/

namespace ustd

theorem array.write_length (u : Indeterminate) (ar : List ℚ) (v : ℚ) :
    array.write u ar ar.length v = ar ++ [v] := by
  simp [array.write]

theorem array.read_lt (u : Indeterminate) (ar : List ℚ) (i : Nat) (h : i < ar.length) :
    array.read u ar i = ar[i] := by
  simp [array.read, List.getD_eq_getElem?_getD, List.getElem?_eq_getElem h]

theorem array.read_ge (u : Indeterminate) (ar : List ℚ) (i : Nat) (h : ar.length ≤ i) :
    array.read u ar i = u.cell := by
  simp [array.read, List.getD_eq_getElem?_getD, List.getElem?_eq_none h]

theorem array.read_append_left (u : Indeterminate) (ar : List ℚ) (v : ℚ) (i : Nat)
    (h : i < ar.length) : array.read u (ar ++ [v]) i = array.read u ar i := by
  rw [array.read_lt u ar i h, array.read_lt u (ar ++ [v]) i (by simp; omega)]
  exact List.getElem_append_left h

theorem array.read_append_length (u : Indeterminate) (ar : List ℚ) (v : ℚ) :
    array.read u (ar ++ [v]) ar.length = v := by
  rw [array.read_lt u (ar ++ [v]) ar.length (by simp)]
  simp

theorem array.read_mem (u : Indeterminate) (ar : List ℚ) (i : Nat) (h : i < ar.length) :
    array.read u ar i ∈ ar := by
  rw [array.read_lt u ar i h]
  exact List.getElem_mem h

theorem array.exists_read_of_mem (u : Indeterminate) (ar : List ℚ) (a : ℚ) (h : a ∈ ar) :
    ∃ i, i < ar.length ∧ array.read u ar i = a := by
  obtain ⟨i, hi, rfl⟩ := List.getElem_of_mem h
  exact ⟨i, hi, array.read_lt u ar i hi⟩

end ustd

/-! ## The constructor -/

namespace numericFunction

open ustd

theorem ctorStore_eq (u : Indeterminate) (px py : Nat → ℚ) (t : NumericFunction) (i : Nat)
    (hx : t.x.length = t.len) (hy : t.y.length = t.len) :
    ctorStore u px py t i =
      { x := t.x ++ [px i], y := t.y ++ [py i],
        minX := if i = 0 ∨ t.minX > px i then px i else t.minX,
        minY := if i = 0 ∨ t.minY > py i then py i else t.minY,
        maxX := if i = 0 ∨ t.maxX < px i then px i else t.maxX,
        maxY := if i = 0 ∨ t.maxY < py i then py i else t.maxY,
        len := t.len + 1, dir := t.dir, extrapolate := t.extrapolate } := by
  have hwx : array.write u t.x t.len (px i) = t.x ++ [px i] := by
    rw [← hx]; exact array.write_length u t.x (px i)
  have hwy : array.write u t.y t.len (py i) = t.y ++ [py i] := by
    rw [← hy]; exact array.write_length u t.y (py i)
  have hrx : array.read u (t.x ++ [px i]) t.len = px i := by
    rw [← hx]; exact array.read_append_length u t.x (px i)
  have hry : array.read u (t.y ++ [py i]) t.len = py i := by
    rw [← hy]; exact array.read_append_length u t.y (py i)
  unfold ctorStore
  simp only [hwx, hwy]
  split_ifs <;> simp_all

theorem pairwise_last {R : ℚ → ℚ → Prop} (u : Indeterminate) (l : List ℚ)
    (h : l.Pairwise R) (a : ℚ) (ha : a ∈ l) :
    a = array.read u l (l.length - 1) ∨ R a (array.read u l (l.length - 1)) := by
  obtain ⟨i, hi, rfl⟩ := List.getElem_of_mem ha
  rw [array.read_lt u l (l.length - 1) (by omega)]
  rcases Nat.lt_or_ge i (l.length - 1) with hlt | hge
  · right
    exact (List.pairwise_iff_getElem.mp h) i (l.length - 1) hi (by omega) hlt
  · left
    have : i = l.length - 1 := by omega
    subst this
    rfl

theorem inputPairs_succ (px py : Nat → ℚ) (n : Nat) :
    inputPairs px py (n + 1) = inputPairs px py n ++ [(px n, py n)] := by
  simp [inputPairs, List.range_succ]

theorem Built.skip {u : Indeterminate} {px py : Nat → ℚ} {n : Nat} {t : NumericFunction}
    (h : Built u px py n t) : Built u px py (n + 1) t :=
  { h with
    le := Nat.le_succ_of_le h.le
    sub := by
      rw [inputPairs_succ]
      exact h.sub.trans (List.sublist_append_left _ _)
    full := fun hlen => absurd h.le (by omega) }

theorem ctorBody_cases (u : Indeterminate) (px py : Nat → ℚ) (t : NumericFunction)
    (n : Nat) (hn : 0 < n) :
    ctorBody u px py t n = t ∨
      (array.read u t.x (t.len - 1) < px n ∧ py n ≠ array.read u t.y (t.len - 1) ∧
        ∃ d : Bool, (t.len = 1 ∨ d = t.dir) ∧
          d = decide (py n > array.read u t.y (t.len - 1)) ∧
          ctorBody u px py t n = ctorStore u px py { t with dir := d } n) := by
  unfold ctorBody
  by_cases h1 : px n ≤ array.read u t.x (t.len - 1)
  · left; simp [hn, h1]
  by_cases h2 : py n = array.read u t.y (t.len - 1)
  · left; simp [hn, h2]
  by_cases h3 : t.len = 1
  · right
    refine ⟨lt_of_not_le h1, h2, decide (py n > array.read u t.y (t.len - 1)),
      Or.inl h3, rfl, ?_⟩
    have h1c := h1
    have h2c := h2
    simp only [h3, Nat.sub_self] at h1c h2c
    simp [hn, h1c, h2c, h3]
  · by_cases h4 : decide (py n > array.read u t.y (t.len - 1)) = t.dir
    · right
      refine ⟨lt_of_not_le h1, h2, t.dir, Or.inr rfl, h4.symm, ?_⟩
      simp [hn, h1, h2, h3, h4]
    · left
      simp [hn, h1, h2, h3, h4]

theorem Built.store {u : Indeterminate} {px py : Nat → ℚ} {n : Nat} {t : NumericFunction}
    (h : Built u px py n t) (hn : 0 < n) (d : Bool)
    (hxl : array.read u t.x (t.len - 1) < px n)
    (hyl : py n ≠ array.read u t.y (t.len - 1))
    (hd : t.len = 1 ∨ d = t.dir)
    (hdv : d = decide (py n > array.read u t.y (t.len - 1))) :
    Built u px py (n + 1) (ctorStore u px py { t with dir := d } n) := by
  have hlx := h.lenx
  have hly := h.leny
  have hpos := h.pos
  have hn0 : n ≠ 0 := by omega
  rw [ctorStore_eq u px py { t with dir := d } n h.lenx h.leny]
  have hxall : ∀ a ∈ t.x, a ≤ array.read u t.x (t.len - 1) := by
    intro a ha
    have := pairwise_last u t.x h.xs a ha
    rw [hlx] at this
    rcases this with e | l
    · exact le_of_eq e
    · exact le_of_lt l
  have h0x : array.read u t.x 0 ∈ t.x := array.read_mem u t.x 0 (by omega)
  refine
    { lenx := by simp [hlx]
      leny := by simp [hly]
      pos := by simp
      le := by simpa using h.le
      xs := ?_
      ysUp := ?_
      ysDown := ?_
      minx := ?_
      maxx := ?_
      miny := ?_
      maxy := ?_
      sub := ?_
      first := ?_
      full := ?_ }
  all_goals try dsimp only
  · simp only [List.pairwise_append, h.xs, List.pairwise_singleton, List.mem_singleton,
      forall_eq, true_and]
    intro a ha
    exact lt_of_le_of_lt (hxall a ha) hxl
  · intro hc
    simp only [add_left_eq_self] at hc
    have hdt : d = true := by
      rcases hc with hc | hc
      · exact hc
      · omega
    have hgt : py n > array.read u t.y (t.len - 1) := by
      rw [hdt] at hdv
      exact of_decide_eq_true hdv.symm
    have hup : t.y.Pairwise (· < ·) := by
      apply h.ysUp
      rcases hd with hd | hd
      · exact Or.inr hd
      · exact Or.inl (hd ▸ hdt)
    simp only [List.pairwise_append, hup, List.pairwise_singleton, List.mem_singleton,
      forall_eq, true_and]
    intro a ha
    have := pairwise_last u t.y hup a ha
    rw [hly] at this
    rcases this with e | l
    · rw [e]; exact hgt
    · exact lt_trans l hgt
  · intro hc
    simp only [add_left_eq_self] at hc
    have hdt : d = false := by
      rcases hc with hc | hc
      · exact hc
      · omega
    have hlt : py n < array.read u t.y (t.len - 1) := by
      rw [hdt] at hdv
      have : ¬ py n > array.read u t.y (t.len - 1) := of_decide_eq_false hdv.symm
      exact lt_of_le_of_ne (le_of_not_lt this) hyl
    have hdown : t.y.Pairwise (· > ·) := by
      apply h.ysDown
      rcases hd with hd | hd
      · exact Or.inr hd
      · exact Or.inl (hd ▸ hdt)
    simp only [List.pairwise_append, hdown, List.pairwise_singleton, List.mem_singleton,
      forall_eq, true_and]
    intro a ha
    have := pairwise_last u t.y hdown a ha
    rw [hly] at this
    rcases this with e | l
    · rw [e]; exact hlt
    · exact lt_trans hlt l
  · have hmin : ¬ t.minX > px n := by
      rw [h.minx]
      exact not_lt.mpr (le_of_lt (lt_of_le_of_lt (hxall _ h0x) hxl))
    simp only [hn0, hmin, false_or, if_false]
    rw [h.minx, array.read_append_left u t.x (px n) 0 (by omega)]
  · have hmax : t.maxX < px n := by rw [h.maxx]; exact hxl
    simp only [hmax, or_true, if_true, Nat.add_sub_cancel]
    rw [← hlx, array.read_append_length]
  · constructor
    · split_ifs
      · simp
      · simp [h.miny.1]
    · intro a ha
      rcases List.mem_append.mp ha with ha | ha
      · have := h.miny.2 a ha
        split_ifs with hc
        · rcases hc with hc | hc
          · omega
          · exact le_trans (le_of_lt hc) this
        · exact this
      · simp only [List.mem_singleton] at ha
        subst ha
        split_ifs with hc
        · exact le_refl _
        · simp only [hn0, false_or, not_lt] at hc
          exact hc
  · constructor
    · split_ifs
      · simp
      · simp [h.maxy.1]
    · intro a ha
      rcases List.mem_append.mp ha with ha | ha
      · have := h.maxy.2 a ha
        split_ifs with hc
        · rcases hc with hc | hc
          · omega
          · exact le_trans this (le_of_lt hc)
        · exact this
      · simp only [List.mem_singleton] at ha
        subst ha
        split_ifs with hc
        · exact le_refl _
        · simp only [hn0, false_or, not_lt] at hc
          exact hc
  · rw [inputPairs_succ, List.zip_append (by rw [hlx, hly])]
    exact List.Sublist.append h.sub (List.Sublist.refl _)
  · constructor
    · rw [array.read_append_left u t.x (px n) 0 (by omega)]; exact h.first.1
    · rw [array.read_append_left u t.y (py n) 0 (by omega)]; exact h.first.2
  · intro hlen
    have hlen1 : t.len = n := by simpa using hlen
    obtain ⟨fx, fy⟩ := h.full hlen1
    simp only [List.range_succ, List.map_append, List.map_cons, List.map_nil]
    constructor
    · rw [← fx]
    · rw [← fy]

theorem Built.step {u : Indeterminate} {px py : Nat → ℚ} {n : Nat} {t : NumericFunction}
    (h : Built u px py n t) (hn : 0 < n) : Built u px py (n + 1) (ctorBody u px py t n) := by
  rcases ctorBody_cases u px py t n hn with e | ⟨hxl, hyl, d, hd, hdv, e⟩
  · rw [e]; exact h.skip
  · rw [e]; exact h.store hn d hxl hyl hd hdv

theorem numericFunction_succ (u : Indeterminate) (px py : Nat → ℚ) (n : Nat) (ex : Bool) :
    numericFunction u px py (n + 1) ex = ctorBody u px py (numericFunction u px py n ex) n := by
  simp [numericFunction, List.range_succ, List.foldl_append]

theorem numericFunction_one (u : Indeterminate) (px py : Nat → ℚ) (ex : Bool) :
    numericFunction u px py 1 ex =
      { x := [px 0], y := [py 0], minX := px 0, minY := py 0, maxX := px 0, maxY := py 0,
        len := 1, dir := u.dir, extrapolate := ex } := by
  rw [numericFunction_succ]
  simp [numericFunction, ctorBody, ctorInit, ctorStore, array.write, array.read]

theorem built_one (u : Indeterminate) (px py : Nat → ℚ) (ex : Bool) :
    Built u px py 1 (numericFunction u px py 1 ex) := by
  rw [numericFunction_one]
  refine
    { lenx := rfl, leny := rfl, pos := le_refl _, le := le_refl _
      xs := List.pairwise_singleton _ _
      ysUp := fun _ => List.pairwise_singleton _ _
      ysDown := fun _ => List.pairwise_singleton _ _
      minx := by simp [array.read]
      maxx := by simp [array.read]
      miny := by simp
      maxy := by simp
      sub := by simp [inputPairs]
      first := by simp [array.read]
      full := fun _ => by simp [List.range_succ] }

theorem built (u : Indeterminate) (px py : Nat → ℚ) (count : Nat) (ex : Bool)
    (hc : 1 ≤ count) : Built u px py count (numericFunction u px py count ex) := by
  induction count, hc using Nat.le_induction with
  | base => exact built_one u px py ex
  | succ n hn ih =>
    rw [numericFunction_succ]
    exact ih.step hn

theorem numericFunction_extrapolate (u : Indeterminate) (px py : Nat → ℚ) (count : Nat)
    (ex : Bool) : (numericFunction u px py count ex).extrapolate = ex := by
  induction count with
  | zero => rfl
  | succ n ih =>
    rw [numericFunction_succ]
    rcases Nat.eq_zero_or_pos n with h0 | hn
    · subst h0
      rw [← numericFunction_succ, numericFunction_one]
    · rcases ctorBody_cases u px py (numericFunction u px py n ex) n hn with
        e | ⟨_, _, d, _, _, e⟩
      · rw [e]; exact ih
      · rw [e]
        simp only [ctorStore]
        split_ifs <;> simpa using ih

end numericFunction

/-! ## The search -/

namespace numericFunction

open ustd

/-- Strict increase of an array, by index. -/
theorem read_lt_of_pairwise (u : Indeterminate) (ar : List ℚ) (h : ar.Pairwise (· < ·))
    (i j : Nat) (hij : i < j) (hj : j < ar.length) :
    array.read u ar i < array.read u ar j := by
  rw [array.read_lt u ar i (by omega), array.read_lt u ar j hj]
  exact (List.pairwise_iff_getElem.mp h) i j (by omega) hj hij

theorem read_le_of_pairwise (u : Indeterminate) (ar : List ℚ) (h : ar.Pairwise (· < ·))
    (i j : Nat) (hij : i ≤ j) (hj : j < ar.length) :
    array.read u ar i ≤ array.read u ar j := by
  rcases Nat.lt_or_eq_of_le hij with hlt | heq
  · exact le_of_lt (read_lt_of_pairwise u ar h i j hlt hj)
  · rw [heq]

theorem tdiv_two (a b : Nat) : Int.tdiv ((a : Int) + b) 2 = (((a + b) / 2 : Nat) : Int) := by
  rw [Int.tdiv_eq_ediv (by omega) (by omega)]
  omega

/-- With fuel for `b - a` rounds the loop returns, and what it returns is a segment that
holds `x`, whenever `ar[a] ≤ x ≤ ar[b]` on entry. -/
theorem linsearchLoop_spec (u : Indeterminate) (ar : List ℚ) (x : ℚ)
    (hs : ar.Pairwise (· < ·)) (fuel : Nat) :
    ∀ a b : Nat, a < b → b < ar.length → b - a ≤ fuel →
      array.read u ar a ≤ x → x ≤ array.read u ar b →
      ∃ n : Nat, linsearchLoop u ar x fuel a b = some (n : Int) ∧ a ≤ n ∧ n < b ∧
        array.read u ar n ≤ x ∧ x ≤ array.read u ar (n + 1) := by
  induction fuel with
  | zero => intro a b hab _ hf; omega
  | succ f ih =>
    intro a b hab hb hf hlo hhi
    unfold linsearchLoop
    by_cases hgap : (b : Int) - a > 1
    · have hm1 : a < (a + b) / 2 := by omega
      have hm2 : (a + b) / 2 < b := by omega
      simp only [hgap, if_true, tdiv_two, Int.toNat_ofNat]
      by_cases heq : array.read u ar ((a + b) / 2) = x
      · refine ⟨(a + b) / 2, by simp [heq], le_of_lt hm1, hm2, le_of_eq heq, ?_⟩
        rw [← heq]
        exact read_le_of_pairwise u ar hs _ _ (Nat.le_succ _) (by omega)
      · by_cases hgt : x > array.read u ar ((a + b) / 2)
        · obtain ⟨n, hn, h1, h2, h3, h4⟩ :=
            ih ((a + b) / 2) b hm2 hb (by omega) (le_of_lt hgt) hhi
          exact ⟨n, by rw [if_neg heq, if_pos hgt]; exact hn, by omega, h2, h3, h4⟩
        · obtain ⟨n, hn, h1, h2, h3, h4⟩ :=
            ih a ((a + b) / 2) hm1 (by omega) (by omega) hlo (le_of_not_lt hgt)
          exact ⟨n, by rw [if_neg heq, if_neg hgt]; exact hn, h1, by omega, h3, h4⟩
    · have hb1 : b = a + 1 := by omega
      subst hb1
      exact ⟨a, by simp [hgap], le_refl _, Nat.lt_succ_self _, hlo, hhi⟩

/-- On a strictly increasing array of at least two elements `linsearch` returns, and for
a query between the first and the last element it returns a segment holding the query. -/
theorem linsearch_spec (u : Indeterminate) (ar : List ℚ) (x : ℚ)
    (hs : ar.Pairwise (· < ·)) (hlen : 2 ≤ ar.length)
    (hlo : array.read u ar 0 ≤ x) (hhi : x ≤ array.read u ar (ar.length - 1)) :
    ∃ n : Nat, linsearch u ar x = some (n : Int) ∧ n + 1 < ar.length ∧
      array.read u ar n ≤ x ∧ x ≤ array.read u ar (n + 1) := by
  have hcast : (ar.length : Int) - 1 = ((ar.length - 1 : Nat) : Int) := by omega
  unfold linsearch
  rw [hcast]
  obtain ⟨n, hn, _, h2, h3, h4⟩ :=
    linsearchLoop_spec u ar x hs (ar.length + 1) 0 (ar.length - 1) (by omega) (by omega)
      (by omega) hlo hhi
  exact ⟨n, by simpa using hn, by omega, h3, h4⟩

end numericFunction

/-! ## Interpolation -/

namespace numericFunction

open ustd

theorem Built.minX_le_maxX {u : Indeterminate} {px py : Nat → ℚ} {n : Nat}
    {t : NumericFunction} (h : Built u px py n t) : t.minX ≤ t.maxX := by
  rw [h.minx, h.maxx]
  exact read_le_of_pairwise u t.x h.xs 0 (t.len - 1) (Nat.zero_le _)
    (by have := h.lenx; have := h.pos; omega)

/-- Below `minX` the code returns `y[0]`, or the value at `xi` of the line through the
first two points. -/
theorem Built.interpol_below {u : Indeterminate} {px py : Nat → ℚ} {n : Nat}
    {t : NumericFunction} (h : Built u px py n t) (h2 : 2 ≤ t.len) (q : ℚ)
    (hq : q < t.minX) :
    interpol u t q =
      if t.extrapolate = true then
        some (array.read u t.y 0 -
          (array.read u t.y 1 - array.read u t.y 0) /
            (array.read u t.x 1 - array.read u t.x 0) * (array.read u t.x 0 - q))
      else some (array.read u t.y 0) := by
  have hx01 : array.read u t.x 0 < array.read u t.x 1 :=
    read_lt_of_pairwise u t.x h.xs 0 1 Nat.zero_lt_one (by have := h.lenx; omega)
  have hne : array.read u t.x 1 - array.read u t.x 0 ≠ 0 := sub_ne_zero.mpr (ne_of_gt hx01)
  unfold interpol
  rw [if_neg (by omega), if_neg (by omega), if_pos hq]
  cases t.extrapolate <;> simp [fdiv, hne]

/-- Above `maxX` the code returns `y[len-1]`, or it divides by `x[len-1] - x[len]`, and
`x[len]` is a cell that was never written. -/
theorem Built.interpol_above {u : Indeterminate} {px py : Nat → ℚ} {n : Nat}
    {t : NumericFunction} (h : Built u px py n t) (h2 : 2 ≤ t.len) (q : ℚ)
    (hq : t.maxX < q) :
    interpol u t q =
      if t.extrapolate = true then
        (fdiv (array.read u t.y (t.len - 1) - array.read u t.y (t.len - 2))
          (array.read u t.x (t.len - 1) - u.cell)).map
          (fun s => array.read u t.y (t.len - 1) + s * (q - array.read u t.x (t.len - 1)))
      else some (array.read u t.y (t.len - 1)) := by
  have hlo : ¬ q < t.minX := not_lt.mpr (le_trans h.minX_le_maxX (le_of_lt hq))
  have hcell : array.read u t.x t.len = u.cell :=
    array.read_ge u t.x t.len (le_of_eq h.lenx)
  unfold interpol
  rw [if_neg (by omega), if_neg (by omega), if_neg hlo, if_pos hq, hcell]
  cases t.extrapolate <;> simp

/-- Between `minX` and `maxX` the search returns a segment that holds the query and the
code returns the value of the line through the two ends of that segment. -/
theorem Built.interpol_inside {u : Indeterminate} {px py : Nat → ℚ} {n : Nat}
    {t : NumericFunction} (h : Built u px py n t) (h2 : 2 ≤ t.len) (q : ℚ)
    (hlo : t.minX ≤ q) (hhi : q ≤ t.maxX) :
    ∃ m : Nat, m + 1 < t.len ∧ array.read u t.x m ≤ q ∧ q ≤ array.read u t.x (m + 1) ∧
      interpol u t q =
        some (array.read u t.y m -
          (array.read u t.y (m + 1) - array.read u t.y m) /
            (array.read u t.x m - array.read u t.x (m + 1)) * (q - array.read u t.x m)) := by
  have hlx := h.lenx
  obtain ⟨m, hm, hml, hm1, hm2⟩ :=
    linsearch_spec u t.x q h.xs (by omega) (by rw [← h.minx]; exact hlo)
      (by rw [hlx, ← h.maxx]; exact hhi)
  have hxm : array.read u t.x m < array.read u t.x (m + 1) :=
    read_lt_of_pairwise u t.x h.xs m (m + 1) (Nat.lt_succ_self _) hml
  have hne : array.read u t.x m - array.read u t.x (m + 1) ≠ 0 :=
    sub_ne_zero.mpr (ne_of_lt hxm)
  refine ⟨m, by omega, hm1, hm2, ?_⟩
  unfold interpol
  rw [if_neg (by omega), if_neg (by omega), if_neg (not_lt.mpr hlo),
    if_neg (not_lt.mpr hhi), hm]
  have hnot : ¬ m ≥ t.len - 1 := by omega
  simp [hnot, fdiv, hne]

/-- The value of the line through two neighbouring points, in the form the code computes
it and in the usual form. -/
theorem segment_value (xa xb ya yb q : ℚ) (hx : xa < xb) :
    ya - (yb - ya) / (xa - xb) * (q - xa) = ya + (yb - ya) * (q - xa) / (xb - xa) := by
  have h1 : xa - xb ≠ 0 := sub_ne_zero.mpr (ne_of_lt hx)
  have h2 : xb - xa ≠ 0 := sub_ne_zero.mpr (ne_of_gt hx)
  field_simp
  ring

/-- Any segment that holds the query gives the value the code returns. -/
theorem Built.interpol_segment {u : Indeterminate} {px py : Nat → ℚ} {n : Nat}
    {t : NumericFunction} (h : Built u px py n t) (h2 : 2 ≤ t.len) (q : ℚ)
    (hlo : t.minX ≤ q) (hhi : q ≤ t.maxX) (k : Nat) (hk : k + 1 < t.len)
    (hk1 : array.read u t.x k ≤ q) (hk2 : q ≤ array.read u t.x (k + 1)) :
    interpol u t q =
      some (array.read u t.y k +
        (array.read u t.y (k + 1) - array.read u t.y k) * (q - array.read u t.x k) /
          (array.read u t.x (k + 1) - array.read u t.x k)) := by
  have hlx := h.lenx
  obtain ⟨m, hml, hm1, hm2, hm⟩ := h.interpol_inside h2 q hlo hhi
  have hxm : array.read u t.x m < array.read u t.x (m + 1) :=
    read_lt_of_pairwise u t.x h.xs m (m + 1) (Nat.lt_succ_self _) (by omega)
  have hxk : array.read u t.x k < array.read u t.x (k + 1) :=
    read_lt_of_pairwise u t.x h.xs k (k + 1) (Nat.lt_succ_self _) (by omega)
  rw [hm, segment_value _ _ _ _ q hxm]
  congr 1
  rcases Nat.lt_trichotomy m k with hlt | heq | hgt
  · have hle : array.read u t.x (m + 1) ≤ array.read u t.x k :=
      read_le_of_pairwise u t.x h.xs (m + 1) k hlt (by omega)
    have hmk : m + 1 = k := by
      by_contra hne
      have : array.read u t.x (m + 1) < array.read u t.x k :=
        read_lt_of_pairwise u t.x h.xs (m + 1) k (by omega) (by omega)
      linarith
    subst hmk
    have hq : q = array.read u t.x (m + 1) := le_antisymm hm2 hk1
    rw [hq]
    have h1 : array.read u t.x (m + 1) - array.read u t.x m ≠ 0 :=
      sub_ne_zero.mpr (ne_of_gt hxm)
    field_simp
  · subst heq; rfl
  · have hle : array.read u t.x (k + 1) ≤ array.read u t.x m :=
      read_le_of_pairwise u t.x h.xs (k + 1) m hgt (by omega)
    have hmk : k + 1 = m := by
      by_contra hne
      have : array.read u t.x (k + 1) < array.read u t.x m :=
        read_lt_of_pairwise u t.x h.xs (k + 1) m (by omega) (by omega)
      linarith
    subst hmk
    have hq : q = array.read u t.x (k + 1) := le_antisymm hk2 hm1
    rw [hq]
    have h1 : array.read u t.x (k + 1) - array.read u t.x k ≠ 0 :=
      sub_ne_zero.mpr (ne_of_gt hxk)
    field_simp

end numericFunction


/-! ## All points kept, and rescaling -/

namespace ustd

theorem array.write_length_lt (u : Indeterminate) (ar : List ℚ) (i : Nat) (v : ℚ)
    (h : i < ar.length) : (array.write u ar i v).length = ar.length := by
  simp [array.write, h]

theorem array.read_write (u : Indeterminate) (ar : List ℚ) (i j : Nat) (v : ℚ)
    (h : i < ar.length) :
    array.read u (array.write u ar i v) j = if j = i then v else array.read u ar j := by
  simp only [array.write, h, if_true, array.read, List.getD_eq_getElem?_getD,
    List.getElem?_set]
  by_cases hji : j = i
  · subst hji; simp [h]
  · have : ¬ i = j := fun e => hji e.symm
    simp [hji, this]
end ustd

namespace numericFunction
open ustd

theorem ctorStore_len (u : Indeterminate) (px py : Nat → ℚ) (t : NumericFunction) (i : Nat) :
    (ctorStore u px py t i).len = t.len + 1 := by
  simp only [ctorStore]
  split_ifs <;> rfl

theorem ctorBody_accept (u : Indeterminate) (px py : Nat → ℚ) (t : NumericFunction)
    (n : Nat) (hxl : array.read u t.x (t.len - 1) < px n)
    (hyl : py n ≠ array.read u t.y (t.len - 1))
    (hd : t.len = 1 ∨ decide (py n > array.read u t.y (t.len - 1)) = t.dir) :
    (ctorBody u px py t n).len = t.len + 1 := by
  unfold ctorBody
  rw [if_neg (fun hc => absurd hxl (not_lt.mpr hc.2)), if_neg (fun hc => hyl hc.2)]
  by_cases h1 : t.len = 1
  · by_cases hn : n > 0
    · simp only [hn, h1, true_and, if_true]
      simp [ctorStore_len, h1]
    · simp [hn, ctorStore_len]
  · have hdir := hd.resolve_left h1
    simp only [h1, and_false, if_false]
    rw [if_neg (fun hc => hc.2 hdir), ctorStore_len]

theorem read_map_range (u : Indeterminate) (f : Nat → ℚ) (n i : Nat) (h : i < n) :
    array.read u ((List.range n).map f) i = f i := by
  rw [array.read_lt u _ i (by simpa using h)]
  simp

/-- Strictly increasing `px` and strictly monotonic `py`: every point is accepted. -/
theorem kept_len (u : Indeterminate) (px py : Nat → ℚ) (count : Nat) (ex : Bool)
    (hx : ∀ i, i + 1 < count → px i < px (i + 1))
    (hy : (∀ i, i + 1 < count → py i < py (i + 1)) ∨
      (∀ i, i + 1 < count → py (i + 1) < py i))
    (n : Nat) (h1 : 1 ≤ n) (hn : n ≤ count) :
    (numericFunction u px py n ex).len = n := by
  induction n, h1 using Nat.le_induction with
  | base => rw [numericFunction_one]
  | succ n h1 ih =>
    have hlen := ih (by omega)
    have hB := built u px py n ex h1
    obtain ⟨fx, fy⟩ := hB.full hlen
    have hrx : array.read u (numericFunction u px py n ex).x
        ((numericFunction u px py n ex).len - 1) = px (n - 1) := by
      rw [fx, hlen]; exact read_map_range u px n (n - 1) (by omega)
    have hry : array.read u (numericFunction u px py n ex).y
        ((numericFunction u px py n ex).len - 1) = py (n - 1) := by
      rw [fy, hlen]; exact read_map_range u py n (n - 1) (by omega)
    have hpx : px (n - 1) < px n := by
      have := hx (n - 1) (by omega)
      rwa [Nat.sub_add_cancel h1] at this
    rw [numericFunction_succ, ctorBody_accept u px py _ n (by rw [hrx]; exact hpx), hlen]
    · rw [hry]
      rcases hy with hy | hy
      · have := hy (n - 1) (by omega)
        rw [Nat.sub_add_cancel h1] at this
        exact ne_of_gt this
      · have := hy (n - 1) (by omega)
        rw [Nat.sub_add_cancel h1] at this
        exact ne_of_lt this
    · rw [hry, hlen]
      by_cases hn1 : n = 1
      · exact Or.inl hn1
      · right
        have hy01 : array.read u (numericFunction u px py n ex).y 0 = py 0 := by
          rw [fy]; exact read_map_range u py n 0 (by omega)
        have hy11 : array.read u (numericFunction u px py n ex).y 1 = py 1 := by
          rw [fy]; exact read_map_range u py n 1 (by omega)
        have hly := hB.leny
        cases hdir : (numericFunction u px py n ex).dir
        · have hdown := hB.ysDown (Or.inl hdir)
          have h01 : py 1 < py 0 := by
            have := (List.pairwise_iff_getElem.mp hdown) 0 1 (by omega) (by omega)
              Nat.zero_lt_one
            rw [← array.read_lt u _ 0 (by omega), ← array.read_lt u _ 1 (by omega), hy01,
              hy11] at this
            exact this
          rcases hy with hy | hy
          · have := hy 0 (by omega)
            simp only [Nat.zero_add] at this
            exact absurd h01 (not_lt.mpr (le_of_lt this))
          · have := hy (n - 1) (by omega)
            rw [Nat.sub_add_cancel h1] at this
            exact decide_eq_false (not_lt.mpr (le_of_lt this))
        · have hup := hB.ysUp (Or.inl hdir)
          have h01 : py 0 < py 1 := by
            have := (List.pairwise_iff_getElem.mp hup) 0 1 (by omega) (by omega)
              Nat.zero_lt_one
            rw [← array.read_lt u _ 0 (by omega), ← array.read_lt u _ 1 (by omega), hy01,
              hy11] at this
            exact this
          rcases hy with hy | hy
          · have := hy (n - 1) (by omega)
            rw [Nat.sub_add_cancel h1] at this
            exact decide_eq_true this
          · have := hy 0 (by omega)
            simp only [Nat.zero_add] at this
            exact absurd h01 (not_lt.mpr (le_of_lt this))


/-- State of the `rescale` loop after the rounds `i = 0, ..., k - 1`: the first `k` cells
are remapped, and the two running bounds are the least and the greatest of the first `k`
values as they were before the remapping. -/
theorem rescale_loop (u : Indeterminate) (par : List ℚ) (pminX dx ndx newMin : ℚ)
    (k : Nat) (hk : k ≤ par.length) :
    ((List.range k).foldl (rescaleBody u pminX dx ndx newMin)
        (par, u.newMinX, u.newMaxX)).1.length = par.length ∧
    (∀ j, j < par.length →
      array.read u ((List.range k).foldl (rescaleBody u pminX dx ndx newMin)
        (par, u.newMinX, u.newMaxX)).1 j =
        if j < k then (array.read u par j - pminX) / dx * ndx + newMin
        else array.read u par j) ∧
    (0 < k →
      (∃ j, j < k ∧ ((List.range k).foldl (rescaleBody u pminX dx ndx newMin)
        (par, u.newMinX, u.newMaxX)).2.1 = array.read u par j) ∧
      (∀ j, j < k → ((List.range k).foldl (rescaleBody u pminX dx ndx newMin)
        (par, u.newMinX, u.newMaxX)).2.1 ≤ array.read u par j) ∧
      (∃ j, j < k ∧ ((List.range k).foldl (rescaleBody u pminX dx ndx newMin)
        (par, u.newMinX, u.newMaxX)).2.2 = array.read u par j) ∧
      (∀ j, j < k → array.read u par j ≤ ((List.range k).foldl
        (rescaleBody u pminX dx ndx newMin) (par, u.newMinX, u.newMaxX)).2.2)) := by
  induction k with
  | zero =>
    refine ⟨rfl, fun j _ => by simp, fun h => absurd h (lt_irrefl _)⟩
  | succ k ih =>
    obtain ⟨hl, hr, hb⟩ := ih (by omega)
    rw [List.range_succ, List.foldl_append]
    simp only [List.foldl_cons, List.foldl_nil]
    generalize (List.range k).foldl (rescaleBody u pminX dx ndx newMin)
      (par, u.newMinX, u.newMaxX) = s at hl hr hb
    have hxi : array.read u s.1 k = array.read u par k := by
      rw [hr k (by omega), if_neg (lt_irrefl _)]
    have hkl : k < s.1.length := by omega
    refine ⟨?_, ?_, fun _ => ?_⟩
    · simp only [rescaleBody]
      rw [array.write_length_lt u s.1 k _ hkl, hl]
    · intro j hj
      simp only [rescaleBody]
      rw [array.read_write u s.1 k j _ hkl, hxi]
      by_cases hjk : j = k
      · subst hjk; simp
      · rw [if_neg hjk, hr j hj]
        by_cases hlt : j < k
        · rw [if_pos hlt, if_pos (by omega)]
        · rw [if_neg hlt, if_neg (by omega)]
    · simp only [rescaleBody, hxi]
      rcases Nat.eq_zero_or_pos k with h0 | hpos
      · subst h0
        simp
      · obtain ⟨⟨ja, hja, hea⟩, hmin, ⟨jb, hjb, heb⟩, hmax⟩ := hb hpos
        have hk0 : k ≠ 0 := by omega
        simp only [hk0, false_or]
        refine ⟨?_, ?_, ?_, ?_⟩
        · split_ifs
          · exact ⟨k, Nat.lt_succ_self _, rfl⟩
          · exact ⟨ja, by omega, hea⟩
        · intro j hj
          rcases Nat.lt_or_eq_of_le (Nat.lt_succ_iff.mp hj) with hlt | heq
          · split_ifs with hc
            · exact le_trans (le_of_lt hc) (hmin j hlt)
            · exact hmin j hlt
          · subst heq
            split_ifs with hc
            · exact le_refl _
            · exact le_of_not_lt hc
        · split_ifs
          · exact ⟨k, Nat.lt_succ_self _, rfl⟩
          · exact ⟨jb, by omega, heb⟩
        · intro j hj
          rcases Nat.lt_or_eq_of_le (Nat.lt_succ_iff.mp hj) with hlt | heq
          · split_ifs with hc
            · exact le_trans (hmax j hlt) (le_of_lt hc)
            · exact hmax j hlt
          · subst heq
            split_ifs with hc
            · exact le_refl _
            · exact le_of_not_lt hc

/-- The array that `rescale` leaves: every element is remapped. -/
theorem rescale_fst (u : Indeterminate) (par : List ℚ) (pminX pmaxX newMin newMax : ℚ) :
    (rescale u par pminX pmaxX newMin newMax).1 =
      par.map (fun v =>
        (v - pminX) / (if par.length < 2 ∨ pminX = pmaxX then 1 else pmaxX - pminX) *
          (newMax - newMin) + newMin) := by
  obtain ⟨hl, hr, _⟩ := rescale_loop u par pminX
    (if par.length < 2 ∨ pminX = pmaxX then 1 else pmaxX - pminX) (newMax - newMin) newMin
    par.length (le_refl _)
  apply List.ext_getElem
  · simpa [rescale] using hl
  · intro j h1 h2
    have hj : j < par.length := by simpa using h2
    have := hr j hj
    rw [if_pos hj, array.read_lt u _ j (by rw [hl]; exact hj), array.read_lt u par j hj] at this
    simpa [rescale] using this

/-- The bounds that `rescale` hands back: the least and the greatest of the values that
the array held on entry. -/
theorem rescale_snd (u : Indeterminate) (par : List ℚ) (pminX pmaxX newMin newMax : ℚ)
    (hp : 0 < par.length) :
    ((rescale u par pminX pmaxX newMin newMax).2.1 ∈ par ∧
      ∀ v ∈ par, (rescale u par pminX pmaxX newMin newMax).2.1 ≤ v) ∧
    ((rescale u par pminX pmaxX newMin newMax).2.2 ∈ par ∧
      ∀ v ∈ par, v ≤ (rescale u par pminX pmaxX newMin newMax).2.2) := by
  obtain ⟨_, _, hb⟩ := rescale_loop u par pminX
    (if par.length < 2 ∨ pminX = pmaxX then 1 else pmaxX - pminX) (newMax - newMin) newMin
    par.length (le_refl _)
  obtain ⟨⟨ja, hja, hea⟩, hmin, ⟨jb, hjb, heb⟩, hmax⟩ := hb hp
  simp only [rescale]
  refine ⟨⟨?_, ?_⟩, ⟨?_, ?_⟩⟩
  · rw [hea]; exact array.read_mem u par ja hja
  · intro v hv
    obtain ⟨j, hj, rfl⟩ := array.exists_read_of_mem u par v hv
    exact hmin j hj
  · rw [heb]; exact array.read_mem u par jb hjb
  · intro v hv
    obtain ⟨j, hj, rfl⟩ := array.exists_read_of_mem u par v hv
    exact hmax j hj

end numericFunction


/-! ## The table of the documentation -/

namespace numericFunction

open ustd

theorem cx_increasing (i : Nat) (h : i + 1 < 4) : cx i < cx (i + 1) := by
  have : i < 3 := by omega
  interval_cases i <;> decide!

theorem cy_decreasing (i : Nat) (h : i + 1 < 4) : cy (i + 1) < cy i := by
  have : i < 3 := by omega
  interval_cases i <;> decide!

theorem doc_table (u : Indeterminate) (ex : Bool) :
    numericFunction u cx cy 4 ex =
      { x := [0, 1, 2, 3], y := [9, 3, 14 / 5, 1], minX := 0, minY := 1, maxX := 3, maxY := 9,
        len := 4, dir := false, extrapolate := ex } := by
  have hB := built u cx cy 4 ex (by omega)
  have hlen := kept_len u cx cy 4 ex cx_increasing (Or.inr cy_decreasing) 4 (by omega)
    (le_refl _)
  obtain ⟨fx, fy⟩ := hB.full hlen
  have hx : (numericFunction u cx cy 4 ex).x = [0, 1, 2, 3] := by
    rw [fx]; decide!
  have hy : (numericFunction u cx cy 4 ex).y = [9, 3, 14 / 5, 1] := by
    rw [fy]; decide!
  have hminx := hB.minx
  have hmaxx := hB.maxx
  have hminy := hB.miny
  have hmaxy := hB.maxy
  have hup := hB.ysUp
  have hex := numericFunction_extrapolate u cx cy 4 ex
  generalize numericFunction u cx cy 4 ex = t at *
  obtain ⟨tx, ty, tminX, tminY, tmaxX, tmaxY, tlen, tdir, tex⟩ := t
  simp only at hlen hx hy hminx hmaxx hminy hmaxy hup hex
  subst hlen hx hy hex
  have h1 : tminX = 0 := by rw [hminx]; simp [array.read]
  have h2 : tmaxX = 3 := by rw [hmaxx]; simp [array.read]
  have h3 : tminY = 1 := by
    have hle := hminy.2 1 (by simp)
    have hmem := hminy.1
    simp only [List.mem_cons, List.mem_singleton, List.not_mem_nil, or_false] at hmem
    rcases hmem with e | e | e | e <;> rw [e] at hle ⊢ <;> norm_num at hle ⊢
  have h4 : tmaxY = 9 := by
    have hle := hmaxy.2 9 (by simp)
    have hmem := hmaxy.1
    simp only [List.mem_cons, List.mem_singleton, List.not_mem_nil, or_false] at hmem
    rcases hmem with e | e | e | e <;> rw [e] at hle ⊢ <;> norm_num at hle ⊢
  have h5 : tdir = false := by
    cases tdir
    · rfl
    · have := hup (Or.inl rfl)
      norm_num at this
  rw [h1, h2, h3, h4, h5]


/-! ## Tables left by the constructor -/

theorem numericFunction_zero (u : Indeterminate) (px py : Nat → ℚ) (ex : Bool) :
    numericFunction u px py 0 ex = ctorInit u ex := rfl

theorem built_of_len (u : Indeterminate) (px py : Nat → ℚ) (count : Nat) (ex : Bool)
    (h : 1 ≤ (numericFunction u px py count ex).len) :
    Built u px py count (numericFunction u px py count ex) := by
  rcases Nat.eq_zero_or_pos count with h0 | hpos
  · subst h0
    rw [numericFunction_zero] at h
    simp [ctorInit] at h
  · exact built u px py count ex hpos

theorem Built.rescaleX_bounds {u : Indeterminate} {px py : Nat → ℚ} {n : Nat}
    {t : NumericFunction} (h : Built u px py n t) (newMin newMax : ℚ) :
    (rescaleX u t newMin newMax).minX = t.minX ∧
      (rescaleX u t newMin newMax).maxX = t.maxX := by
  have hlx := h.lenx
  have hpos := h.pos
  obtain ⟨⟨hm1, hm2⟩, hM1, hM2⟩ :=
    rescale_snd u t.x t.minX t.maxX newMin newMax (by omega)
  have h0 : array.read u t.x 0 ∈ t.x := array.read_mem u t.x 0 (by omega)
  have hl : array.read u t.x (t.len - 1) ∈ t.x := array.read_mem u t.x (t.len - 1) (by omega)
  simp only [rescaleX]
  constructor
  · refine Eq.trans (le_antisymm (hm2 _ h0) ?_) h.minx.symm
    obtain ⟨j, hj, e⟩ := array.exists_read_of_mem u t.x _ hm1
    rw [← e]
    exact read_le_of_pairwise u t.x h.xs 0 j (Nat.zero_le _) hj
  · refine Eq.trans (le_antisymm ?_ (hM2 _ hl)) h.maxx.symm
    obtain ⟨j, hj, e⟩ := array.exists_read_of_mem u t.x _ hM1
    rw [← e]
    exact read_le_of_pairwise u t.x h.xs j (t.len - 1) (by omega) (by omega)

theorem Built.rescaleY_bounds {u : Indeterminate} {px py : Nat → ℚ} {n : Nat}
    {t : NumericFunction} (h : Built u px py n t) (newMin newMax : ℚ) :
    (rescaleY u t newMin newMax).minY = t.minY ∧
      (rescaleY u t newMin newMax).maxY = t.maxY := by
  have hly := h.leny
  have hpos := h.pos
  obtain ⟨⟨hm1, hm2⟩, hM1, hM2⟩ :=
    rescale_snd u t.y t.minY t.maxY newMin newMax (by omega)
  simp only [rescaleY]
  exact ⟨le_antisymm (hm2 _ h.miny.1) (h.miny.2 _ hm1),
    le_antisymm (h.maxy.2 _ hM1) (hM2 _ h.maxy.1)⟩

theorem Built.minY_lt_maxY {u : Indeterminate} {px py : Nat → ℚ} {n : Nat}
    {t : NumericFunction} (h : Built u px py n t) (h2 : 2 ≤ t.len) : t.minY < t.maxY := by
  have hly := h.leny
  have h0 : array.read u t.y 0 ∈ t.y := array.read_mem u t.y 0 (by omega)
  have h1 : array.read u t.y 1 ∈ t.y := array.read_mem u t.y 1 (by omega)
  have hne : array.read u t.y 0 ≠ array.read u t.y 1 := by
    rw [array.read_lt u t.y 0 (by omega), array.read_lt u t.y 1 (by omega)]
    cases hd : t.dir
    · exact ne_of_gt ((List.pairwise_iff_getElem.mp (h.ysDown (Or.inl hd))) 0 1 (by omega)
        (by omega) Nat.zero_lt_one)
    · exact ne_of_lt ((List.pairwise_iff_getElem.mp (h.ysUp (Or.inl hd))) 0 1 (by omega)
        (by omega) Nat.zero_lt_one)
  rcases lt_or_gt_of_ne hne with hlt | hgt
  · exact lt_of_le_of_lt (h.miny.2 _ h0) (lt_of_lt_of_le hlt (h.maxy.2 _ h1))
  · exact lt_of_le_of_lt (h.miny.2 _ h1) (lt_of_lt_of_le hgt (h.maxy.2 _ h0))

end numericFunction

/-! ## Interpolation and extrapolation on constructed tables -/

namespace numericFunction

open ustd

/-- C1: on a table left by the constructor with at least two accepted points, a query `q`
with `minX ≤ q ≤ maxX` lies in some segment `x[n] ≤ q ≤ x[n+1]` with `n + 1 < len`, and
for every such segment `interpol(q)` is
`y[n] + (y[n+1] - y[n]) * (q - x[n]) / (x[n+1] - x[n])`; on the table of the
documentation `interpol(1.5)` is `2.9`. -/
theorem C1_interpol_inside (u : Indeterminate) (px py : Nat → ℚ) (count : Nat) (ex : Bool)
    (q : ℚ) (h2 : 2 ≤ (numericFunction u px py count ex).len)
    (hlo : (numericFunction u px py count ex).minX ≤ q)
    (hhi : q ≤ (numericFunction u px py count ex).maxX) :
    (∃ n : Nat, n + 1 < (numericFunction u px py count ex).len ∧
      array.read u (numericFunction u px py count ex).x n ≤ q ∧
      q ≤ array.read u (numericFunction u px py count ex).x (n + 1)) ∧
    (∀ n : Nat, n + 1 < (numericFunction u px py count ex).len →
      array.read u (numericFunction u px py count ex).x n ≤ q →
      q ≤ array.read u (numericFunction u px py count ex).x (n + 1) →
      interpol u (numericFunction u px py count ex) q =
        some (array.read u (numericFunction u px py count ex).y n +
          (array.read u (numericFunction u px py count ex).y (n + 1) -
              array.read u (numericFunction u px py count ex).y n) *
            (q - array.read u (numericFunction u px py count ex).x n) /
          (array.read u (numericFunction u px py count ex).x (n + 1) -
            array.read u (numericFunction u px py count ex).x n))) ∧
    interpol u (numericFunction u cx cy 4 ex) (3 / 2) = some (29 / 10) := by
  have hB := built_of_len u px py count ex (by omega)
  refine ⟨?_, ?_, ?_⟩
  · obtain ⟨m, hm, h1, h3, _⟩ := hB.interpol_inside h2 q hlo hhi
    exact ⟨m, hm, h1, h3⟩
  · intro n hn h1 h3
    exact hB.interpol_segment h2 q hlo hhi n hn h1 h3
  · have hD := built u cx cy 4 ex (by omega)
    have h := hD.interpol_segment (by rw [doc_table]; simp) (3 / 2)
      (by rw [doc_table]; norm_num) (by rw [doc_table]; norm_num) 1 (by rw [doc_table]; simp)
      (by rw [doc_table]; norm_num [array.read]) (by rw [doc_table]; norm_num [array.read])
    rw [h, doc_table]
    norm_num [array.read]

/-- C1, at the table of the documentation and the query `1.5`. -/
theorem C1_interpol_inside_witness :
    (∃ n : Nat, n + 1 < (numericFunction zeroed cx cy 4 true).len ∧
      array.read zeroed (numericFunction zeroed cx cy 4 true).x n ≤ 3 / 2 ∧
      3 / 2 ≤ array.read zeroed (numericFunction zeroed cx cy 4 true).x (n + 1)) ∧
    (∀ n : Nat, n + 1 < (numericFunction zeroed cx cy 4 true).len →
      array.read zeroed (numericFunction zeroed cx cy 4 true).x n ≤ 3 / 2 →
      3 / 2 ≤ array.read zeroed (numericFunction zeroed cx cy 4 true).x (n + 1) →
      interpol zeroed (numericFunction zeroed cx cy 4 true) (3 / 2) =
        some (array.read zeroed (numericFunction zeroed cx cy 4 true).y n +
          (array.read zeroed (numericFunction zeroed cx cy 4 true).y (n + 1) -
              array.read zeroed (numericFunction zeroed cx cy 4 true).y n) *
            (3 / 2 - array.read zeroed (numericFunction zeroed cx cy 4 true).x n) /
          (array.read zeroed (numericFunction zeroed cx cy 4 true).x (n + 1) -
            array.read zeroed (numericFunction zeroed cx cy 4 true).x n))) ∧
    interpol zeroed (numericFunction zeroed cx cy 4 true) (3 / 2) = some (29 / 10) :=
  C1_interpol_inside zeroed cx cy 4 true (3 / 2) (by decide!) (by decide!) (by decide!)

/-- C2, amended: for `count ≥ 2` input pairs with strictly increasing `px` and with `py`
strictly increasing throughout or strictly decreasing throughout, the constructor keeps
every point (`len = count`, `x = px`, `y = py`), and in exact arithmetic, that is without
rounding and without the store of the result in `float yi`, `interpol(px[i])` is exactly
`py[i]` for every `i < count`, whatever the extrapolate flag. -/
theorem C2_interpol_at_samples (u : Indeterminate) (px py : Nat → ℚ) (count : Nat)
    (ex : Bool) (hc : 2 ≤ count) (hx : ∀ i, i + 1 < count → px i < px (i + 1))
    (hy : (∀ i, i + 1 < count → py i < py (i + 1)) ∨
      (∀ i, i + 1 < count → py (i + 1) < py i)) :
    (numericFunction u px py count ex).len = count ∧
    (numericFunction u px py count ex).x = (List.range count).map px ∧
    (numericFunction u px py count ex).y = (List.range count).map py ∧
    ∀ i, i < count → interpol u (numericFunction u px py count ex) (px i) = some (py i) := by
  have hB := built u px py count ex (by omega)
  have hlen := kept_len u px py count ex hx hy count (by omega) (le_refl _)
  obtain ⟨fx, fy⟩ := hB.full hlen
  refine ⟨hlen, fx, fy, ?_⟩
  intro i hi
  have hrx : ∀ j, j < count →
      array.read u (numericFunction u px py count ex).x j = px j := by
    intro j hj; rw [fx]; exact read_map_range u px count j hj
  have hry : ∀ j, j < count →
      array.read u (numericFunction u px py count ex).y j = py j := by
    intro j hj; rw [fy]; exact read_map_range u py count j hj
  have hlx := hB.lenx
  have hlo : (numericFunction u px py count ex).minX ≤ px i := by
    rw [hB.minx, ← hrx i hi]
    exact read_le_of_pairwise u _ hB.xs 0 i (Nat.zero_le _) (by omega)
  have hhi : px i ≤ (numericFunction u px py count ex).maxX := by
    rw [hB.maxx, ← hrx i hi]
    exact read_le_of_pairwise u _ hB.xs i _ (by omega) (by omega)
  rcases Nat.lt_or_ge (i + 1) count with hlt | hge
  · have h := hB.interpol_segment (by omega) (px i) hlo hhi i (by omega)
      (by rw [hrx i hi]) (by rw [hrx (i + 1) hlt]; exact le_of_lt (hx i hlt))
    rw [h, hrx i hi, hry i hi]
    simp
  · have hi1 : i - 1 + 1 = i := by omega
    have hxi := hx (i - 1) (by omega)
    rw [hi1] at hxi
    have h := hB.interpol_segment (by omega) (px i) hlo hhi (i - 1) (by omega)
      (by rw [hrx (i - 1) (by omega)]; exact le_of_lt hxi)
      (by rw [hi1, hrx i hi])
    rw [h, hi1, hrx i hi, hry i hi, hrx (i - 1) (by omega), hry (i - 1) (by omega)]
    have hne : px i - px (i - 1) ≠ 0 := sub_ne_zero.mpr (ne_of_gt hxi)
    congr 1
    field_simp

/-- C2 amended, at the table of the documentation. -/
theorem C2_interpol_at_samples_witness :
    (numericFunction zeroed cx cy 4 false).len = 4 ∧
    (numericFunction zeroed cx cy 4 false).x = (List.range 4).map cx ∧
    (numericFunction zeroed cx cy 4 false).y = (List.range 4).map cy ∧
    ∀ i, i < 4 → interpol zeroed (numericFunction zeroed cx cy 4 false) (cx i) = some (cy i) :=
  C2_interpol_at_samples zeroed cx cy 4 false (by decide) cx_increasing
    (Or.inr cy_decreasing)

/-- C3: for the table of the documentation built with extrapolate = true and the query
`3.2 > maxX`, the code divides by `x[3] - x[4]`, and `x[4]` is a cell beyond the stored
points. The result is the value `0.64` of the line through the last two stored points
only when that cell happens to hold `x[2] = 2`; with the cell holding zero the result is
`0.88`, the value printed in the listing of the documentation. -/
theorem C3_extrapolation_above_reads_past_the_end (u : Indeterminate) :
    interpol u (numericFunction u cx cy 4 true) (16 / 5) =
      (fdiv (1 - 14 / 5) (3 - u.cell)).map (fun s => 1 + s * (16 / 5 - 3)) ∧
    (interpol u (numericFunction u cx cy 4 true) (16 / 5) =
      some (1 + (1 - 14 / 5) / (3 - 2) * (16 / 5 - 3)) ↔ u.cell = 2) ∧
    interpol zeroed (numericFunction zeroed cx cy 4 true) (16 / 5) = some (22 / 25) ∧
    (1 : ℚ) + (1 - 14 / 5) / (3 - 2) * (16 / 5 - 3) = 16 / 25 := by
  have hD := built u cx cy 4 true (by omega)
  have h := hD.interpol_above (by rw [doc_table]; simp) (16 / 5)
    (by rw [doc_table]; norm_num)
  rw [doc_table] at h
  simp only [if_true, array.read] at h
  have h1 : interpol u (numericFunction u cx cy 4 true) (16 / 5) =
      (fdiv (1 - 14 / 5) (3 - u.cell)).map (fun s => 1 + s * (16 / 5 - 3)) := by
    rw [doc_table, h]; norm_num
  refine ⟨h1, ?_, by decide!, by norm_num⟩
  rw [h1]
  unfold fdiv
  by_cases hz : (3 : ℚ) - u.cell = 0
  · rw [if_pos hz]
    constructor
    · intro hc; simp at hc
    · intro hc; rw [hc] at hz; norm_num at hz
  · rw [if_neg hz]
    simp only [Option.map_some', Option.some.injEq]
    constructor
    · intro hc
      field_simp at hc
      linarith
    · intro hc
      rw [hc]

/-- C4: on a table with at least two accepted points built with extrapolate = true, a
query `q < minX` gives `y[0] - (y[1] - y[0]) / (x[1] - x[0]) * (x[0] - q)`, the value at
`q` of the line through the first two stored points; on the table of the documentation
`interpol(-0.3)` is `10.8`. -/
theorem C4_extrapolation_below (u : Indeterminate) (px py : Nat → ℚ) (count : Nat) (q : ℚ)
    (h2 : 2 ≤ (numericFunction u px py count true).len)
    (hq : q < (numericFunction u px py count true).minX) :
    interpol u (numericFunction u px py count true) q =
      some (array.read u (numericFunction u px py count true).y 0 -
        (array.read u (numericFunction u px py count true).y 1 -
            array.read u (numericFunction u px py count true).y 0) /
          (array.read u (numericFunction u px py count true).x 1 -
            array.read u (numericFunction u px py count true).x 0) *
          (array.read u (numericFunction u px py count true).x 0 - q)) ∧
    interpol u (numericFunction u cx cy 4 true) (-3 / 10) = some (54 / 5) := by
  have hB := built_of_len u px py count true (by omega)
  constructor
  · rw [hB.interpol_below h2 q hq, numericFunction_extrapolate, if_pos rfl]
  · have hD := built u cx cy 4 true (by omega)
    rw [hD.interpol_below (by rw [doc_table]; simp) (-3 / 10)
      (by rw [doc_table]; norm_num), doc_table]
    norm_num [array.read]

/-- C4, at the table of the documentation and the query `-0.3`. -/
theorem C4_extrapolation_below_witness :
    interpol zeroed (numericFunction zeroed cx cy 4 true) (-3 / 10) =
      some (array.read zeroed (numericFunction zeroed cx cy 4 true).y 0 -
        (array.read zeroed (numericFunction zeroed cx cy 4 true).y 1 -
            array.read zeroed (numericFunction zeroed cx cy 4 true).y 0) /
          (array.read zeroed (numericFunction zeroed cx cy 4 true).x 1 -
            array.read zeroed (numericFunction zeroed cx cy 4 true).x 0) *
          (array.read zeroed (numericFunction zeroed cx cy 4 true).x 0 - -3 / 10)) ∧
    interpol zeroed (numericFunction zeroed cx cy 4 true) (-3 / 10) = some (54 / 5) :=
  C4_extrapolation_below zeroed cx cy 4 (-3 / 10) (by decide!) (by decide!)

/-- C5: a table built from one point `(px[0], py[0])` holds that one point, and for every
query `interpol` returns the stored x value `px[0]`, not the stored y value `py[0]`; the
same holds for every table in which one point was accepted; for the point `(2, 5)` and
the query `7` the result is `2`. -/
theorem C5_single_point_returns_x (u : Indeterminate) (px py : Nat → ℚ) (ex : Bool) (q : ℚ) :
    (numericFunction u px py 1 ex).len = 1 ∧
    (numericFunction u px py 1 ex).x = [px 0] ∧
    (numericFunction u px py 1 ex).y = [py 0] ∧
    interpol u (numericFunction u px py 1 ex) q = some (px 0) ∧
    (∀ count : Nat, (numericFunction u px py count ex).len = 1 →
      interpol u (numericFunction u px py count ex) q = some (px 0)) ∧
    interpol zeroed (numericFunction zeroed (fun _ => 2) (fun _ => 5) 1 false) 7 = some 2 ∧
    interpol zeroed (numericFunction zeroed (fun _ => 2) (fun _ => 5) 1 false) 7 ≠ some 5 := by
  refine ⟨?_, ?_, ?_, ?_, ?_, ?_, ?_⟩
  · rw [numericFunction_one]
  · rw [numericFunction_one]
  · rw [numericFunction_one]
  · rw [numericFunction_one]
    simp [interpol, array.read]
  · intro count h1
    have hB := built_of_len u px py count ex (by omega)
    unfold interpol
    rw [if_neg (by omega), if_pos h1, hB.first.1]
  · decide!
  · decide!

/-- C6: on a table with at least two accepted points built with extrapolate = false,
every query below `minX` gives `y[0]` and every query above `maxX` gives `y[len-1]`. -/
theorem C6_clamping (u : Indeterminate) (px py : Nat → ℚ) (count : Nat)
    (h2 : 2 ≤ (numericFunction u px py count false).len) :
    (∀ q : ℚ, q < (numericFunction u px py count false).minX →
      interpol u (numericFunction u px py count false) q =
        some (array.read u (numericFunction u px py count false).y 0)) ∧
    (∀ q : ℚ, (numericFunction u px py count false).maxX < q →
      interpol u (numericFunction u px py count false) q =
        some (array.read u (numericFunction u px py count false).y
          ((numericFunction u px py count false).len - 1))) := by
  have hB := built_of_len u px py count false (by omega)
  have hex := numericFunction_extrapolate u px py count false
  constructor
  · intro q hq
    rw [hB.interpol_below h2 q hq, hex]
    simp
  · intro q hq
    rw [hB.interpol_above h2 q hq, hex]
    simp

/-- C6, at the table of the documentation. -/
theorem C6_clamping_witness :
    (∀ q : ℚ, q < (numericFunction zeroed cx cy 4 false).minX →
      interpol zeroed (numericFunction zeroed cx cy 4 false) q =
        some (array.read zeroed (numericFunction zeroed cx cy 4 false).y 0)) ∧
    (∀ q : ℚ, (numericFunction zeroed cx cy 4 false).maxX < q →
      interpol zeroed (numericFunction zeroed cx cy 4 false) q =
        some (array.read zeroed (numericFunction zeroed cx cy 4 false).y
          ((numericFunction zeroed cx cy 4 false).len - 1))) :=
  C6_clamping zeroed cx cy 4 (by decide!)

/-! ## The constructor and the rescale operations -/

/-- For every input whose values are numbers, so that any two of them compare, the table
left by the constructor has `len ≤ count`, stores `len` values in `x` and in `y`, has
strictly increasing `x`, has `y` strictly increasing when `dir` is true and strictly
decreasing when `dir` is false (for `len ≥ 2`), and its points are a subsequence of the
input pairs that starts with the first input pair when `count ≥ 1`. -/
theorem constructor_invariants (u : Indeterminate) (px py : Nat → ℚ) (count : Nat)
    (ex : Bool) :
    (numericFunction u px py count ex).len ≤ count ∧
    (numericFunction u px py count ex).x.length = (numericFunction u px py count ex).len ∧
    (numericFunction u px py count ex).y.length = (numericFunction u px py count ex).len ∧
    (numericFunction u px py count ex).x.Pairwise (· < ·) ∧
    (2 ≤ (numericFunction u px py count ex).len →
      ((numericFunction u px py count ex).dir = true →
        (numericFunction u px py count ex).y.Pairwise (· < ·)) ∧
      ((numericFunction u px py count ex).dir = false →
        (numericFunction u px py count ex).y.Pairwise (· > ·))) ∧
    List.Sublist
      (List.zip (numericFunction u px py count ex).x (numericFunction u px py count ex).y)
      (inputPairs px py count) ∧
    (1 ≤ count →
      (List.zip (numericFunction u px py count ex).x
        (numericFunction u px py count ex).y).head? = some (px 0, py 0)) := by
  rcases Nat.eq_zero_or_pos count with h0 | hpos
  · subst h0
    rw [numericFunction_zero]
    simp [ctorInit, inputPairs]
  · have hB := built u px py count ex hpos
    refine ⟨hB.le, hB.lenx, hB.leny, hB.xs,
      fun _ => ⟨fun hd => hB.ysUp (Or.inl hd), fun hd => hB.ysDown (Or.inl hd)⟩, hB.sub, ?_⟩
    intro _
    have hlx := hB.lenx
    have hly := hB.leny
    have hp := hB.pos
    obtain ⟨f1, f2⟩ := hB.first
    generalize numericFunction u px py count ex = t at *
    obtain ⟨tx, ty, tminX, tminY, tmaxX, tmaxY, tlen, tdir, tex⟩ := t
    simp only at hlx hly hp f1 f2 ⊢
    cases tx with
    | nil => simp at hlx; omega
    | cons a tx =>
      cases ty with
      | nil => simp at hly; omega
      | cons b ty =>
        simp only [array.read, List.getD_cons_zero] at f1 f2
        simp [f1, f2]

/-- C8: when some index `i` with `1 ≤ i < count` has `px[i] ≤ px[i-1]`, the table left by
the constructor has `len < count`. -/
theorem C8_out_of_order_dropped (u : Indeterminate) (px py : Nat → ℚ) (count : Nat)
    (ex : Bool) (i : Nat) (h1 : 1 ≤ i) (hi : i < count) (hbad : px i ≤ px (i - 1)) :
    (numericFunction u px py count ex).len < count := by
  have hB := built u px py count ex (by omega)
  rcases Nat.lt_or_eq_of_le hB.le with hlt | heq
  · exact hlt
  · exfalso
    obtain ⟨fx, _⟩ := hB.full heq
    have hs := hB.xs
    rw [fx] at hs
    have hlt := read_lt_of_pairwise u _ hs (i - 1) i (by omega) (by simpa using hi)
    rw [read_map_range u px count (i - 1) (by omega), read_map_range u px count i hi] at hlt
    exact absurd hlt (not_lt.mpr hbad)

/-- C8, at the x-values `0, 2, 1, 3`, where `px[2] ≤ px[1]`. -/
theorem C8_out_of_order_dropped_witness :
    (numericFunction zeroed (fun i => [0, 2, 1, 3].getD i 0) cy 4 false).len < 4 :=
  C8_out_of_order_dropped zeroed (fun i => [0, 2, 1, 3].getD i 0) cy 4 false 2 (by decide)
    (by decide) (by decide)

/-- C9: `rescale` takes its running bounds from the values it reads before remapping
them, so on every table built from at least one point `rescaleX` leaves `minX` and `maxX`
as they were and `rescaleY` leaves `minY` and `maxY` as they were. On the table of the
documentation `rescaleX(10, 20)` turns `x` into `10, 40/3, 50/3, 20` and leaves
`minX = 0` and `maxX = 3`, not `10` and `20`. -/
theorem C9_rescale_keeps_old_bounds (u : Indeterminate) (px py : Nat → ℚ) (count : Nat)
    (ex : Bool) (newMin newMax : ℚ) :
    (rescaleX u (numericFunction u px py (count + 1) ex) newMin newMax).minX =
      (numericFunction u px py (count + 1) ex).minX ∧
    (rescaleX u (numericFunction u px py (count + 1) ex) newMin newMax).maxX =
      (numericFunction u px py (count + 1) ex).maxX ∧
    (rescaleY u (numericFunction u px py (count + 1) ex) newMin newMax).minY =
      (numericFunction u px py (count + 1) ex).minY ∧
    (rescaleY u (numericFunction u px py (count + 1) ex) newMin newMax).maxY =
      (numericFunction u px py (count + 1) ex).maxY ∧
    (rescaleX zeroed (numericFunction zeroed cx cy 4 true) 10 20).x =
      [10, 40 / 3, 50 / 3, 20] ∧
    (rescaleX zeroed (numericFunction zeroed cx cy 4 true) 10 20).minX = 0 ∧
    (rescaleX zeroed (numericFunction zeroed cx cy 4 true) 10 20).maxX = 3 := by
  have hB := built u px py (count + 1) ex (by omega)
  obtain ⟨h1, h2⟩ := hB.rescaleX_bounds newMin newMax
  obtain ⟨h3, h4⟩ := hB.rescaleY_bounds newMin newMax
  exact ⟨h1, h2, h3, h4, by decide!, by decide!, by decide!⟩

/-- C10: on a table left by the constructor with at least two accepted points,
`rescaleX(newMin, newMax)` replaces every stored `x[i]` by
`newMin + (x[i] - x[0]) / (x[len-1] - x[0]) * (newMax - newMin)`, where `x[0] < x[len-1]`,
so that `x[0]` becomes `newMin` and `x[len-1]` becomes `newMax`, and it leaves `y`, `len`,
`dir` and `extrapolate` as they were; `rescaleY` replaces every stored `y[i]` by
`newMin + (y[i] - minY) / (maxY - minY) * (newMax - newMin)`, where `minY < maxY`, and
leaves `x`, `len`, `dir` and `extrapolate` as they were. -/
theorem C10_rescale_remaps (u : Indeterminate) (px py : Nat → ℚ) (count : Nat) (ex : Bool)
    (newMin newMax : ℚ) (h2 : 2 ≤ (numericFunction u px py count ex).len) :
    (array.read u (numericFunction u px py count ex).x 0 <
      array.read u (numericFunction u px py count ex).x
        ((numericFunction u px py count ex).len - 1) ∧
    (rescaleX u (numericFunction u px py count ex) newMin newMax).x =
      (numericFunction u px py count ex).x.map (fun v =>
        newMin + (v - array.read u (numericFunction u px py count ex).x 0) /
          (array.read u (numericFunction u px py count ex).x
            ((numericFunction u px py count ex).len - 1) -
            array.read u (numericFunction u px py count ex).x 0) * (newMax - newMin)) ∧
    array.read u (rescaleX u (numericFunction u px py count ex) newMin newMax).x 0 = newMin ∧
    array.read u (rescaleX u (numericFunction u px py count ex) newMin newMax).x
      ((numericFunction u px py count ex).len - 1) = newMax ∧
    (rescaleX u (numericFunction u px py count ex) newMin newMax).y =
      (numericFunction u px py count ex).y ∧
    (rescaleX u (numericFunction u px py count ex) newMin newMax).len =
      (numericFunction u px py count ex).len ∧
    (rescaleX u (numericFunction u px py count ex) newMin newMax).dir =
      (numericFunction u px py count ex).dir ∧
    (rescaleX u (numericFunction u px py count ex) newMin newMax).extrapolate =
      (numericFunction u px py count ex).extrapolate) ∧
    ((numericFunction u px py count ex).minY < (numericFunction u px py count ex).maxY ∧
    (rescaleY u (numericFunction u px py count ex) newMin newMax).y =
      (numericFunction u px py count ex).y.map (fun v =>
        newMin + (v - (numericFunction u px py count ex).minY) /
          ((numericFunction u px py count ex).maxY -
            (numericFunction u px py count ex).minY) * (newMax - newMin)) ∧
    (rescaleY u (numericFunction u px py count ex) newMin newMax).x =
      (numericFunction u px py count ex).x ∧
    (rescaleY u (numericFunction u px py count ex) newMin newMax).len =
      (numericFunction u px py count ex).len ∧
    (rescaleY u (numericFunction u px py count ex) newMin newMax).dir =
      (numericFunction u px py count ex).dir ∧
    (rescaleY u (numericFunction u px py count ex) newMin newMax).extrapolate =
      (numericFunction u px py count ex).extrapolate) := by
  have hB := built_of_len u px py count ex (by omega)
  have hlx := hB.lenx
  have hly := hB.leny
  have hminx := hB.minx
  have hmaxx := hB.maxx
  have hxs := hB.xs
  have hylt := hB.minY_lt_maxY h2
  generalize numericFunction u px py count ex = t at *
  have hx0l : array.read u t.x 0 < array.read u t.x (t.len - 1) :=
    read_lt_of_pairwise u t.x hxs 0 (t.len - 1) (by omega) (by omega)
  have hxmap : (rescaleX u t newMin newMax).x =
      t.x.map (fun v => newMin + (v - array.read u t.x 0) /
        (array.read u t.x (t.len - 1) - array.read u t.x 0) * (newMax - newMin)) := by
    simp only [rescaleX]
    rw [rescale_fst, hminx, hmaxx]
    have hc : ¬ (t.x.length < 2 ∨ array.read u t.x 0 = array.read u t.x (t.len - 1)) := by
      intro hc
      rcases hc with hc | hc
      · omega
      · exact absurd hc (ne_of_lt hx0l)
    rw [if_neg hc]
    apply List.map_congr_left
    intro v _
    ring
  have hymap : (rescaleY u t newMin newMax).y =
      t.y.map (fun v => newMin + (v - t.minY) / (t.maxY - t.minY) * (newMax - newMin)) := by
    simp only [rescaleY]
    rw [rescale_fst]
    have hc : ¬ (t.y.length < 2 ∨ t.minY = t.maxY) := by
      intro hc
      rcases hc with hc | hc
      · omega
      · exact absurd hc (ne_of_lt hylt)
    rw [if_neg hc]
    apply List.map_congr_left
    intro v _
    ring
  have hne : array.read u t.x (t.len - 1) - array.read u t.x 0 ≠ 0 :=
    sub_ne_zero.mpr (ne_of_gt hx0l)
  refine ⟨⟨hx0l, hxmap, ?_, ?_, rfl, rfl, rfl, rfl⟩, ⟨hylt, hymap, rfl, rfl, rfl, rfl⟩⟩
  · rw [hxmap, array.read_lt u _ 0 (by simp; omega), List.getElem_map,
      ← array.read_lt u t.x 0 (by omega)]
    simp
  · rw [hxmap, array.read_lt u _ (t.len - 1) (by simp; omega), List.getElem_map,
      ← array.read_lt u t.x (t.len - 1) (by omega)]
    field_simp

/-- C10, at the table of the documentation rescaled to the range from 10 to 20. -/
theorem C10_rescale_remaps_witness :
    (rescaleX zeroed (numericFunction zeroed cx cy 4 true) 10 20).x =
      (numericFunction zeroed cx cy 4 true).x.map (fun v =>
        10 + (v - array.read zeroed (numericFunction zeroed cx cy 4 true).x 0) /
          (array.read zeroed (numericFunction zeroed cx cy 4 true).x
            ((numericFunction zeroed cx cy 4 true).len - 1) -
            array.read zeroed (numericFunction zeroed cx cy 4 true).x 0) * (20 - 10)) ∧
    (rescaleY zeroed (numericFunction zeroed cx cy 4 true) 10 20).y =
      (numericFunction zeroed cx cy 4 true).y.map (fun v =>
        10 + (v - (numericFunction zeroed cx cy 4 true).minY) /
          ((numericFunction zeroed cx cy 4 true).maxY -
            (numericFunction zeroed cx cy 4 true).minY) * (20 - 10)) :=
  ⟨(C10_rescale_remaps zeroed cx cy 4 true 10 20 (by decide!)).1.2.1,
    (C10_rescale_remaps zeroed cx cy 4 true 10 20 (by decide!)).2.2.1⟩

end numericFunction

/-! ## The search, for every query -/

namespace numericFunction

open ustd

/-- The loop with the bounds it keeps: left of `a` every probed element was below `x`,
right of `b` every probed element was above `x`. It returns with fuel for `b - a` rounds,
and the index it returns was hit exactly or lies between two such bounds. -/
theorem linsearchLoop_bounds (u : Indeterminate) (ar : List ℚ) (x : ℚ) (fuel : Nat) :
    ∀ a b : Nat, a < b → b < ar.length → b - a ≤ fuel →
      (a = 0 ∨ array.read u ar a < x) → (b = ar.length - 1 ∨ x < array.read u ar b) →
      ∃ n : Nat, linsearchLoop u ar x fuel a b = some (n : Int) ∧ a ≤ n ∧ n < b ∧
        (array.read u ar n = x ∨
          ((n = 0 ∨ array.read u ar n < x) ∧
            (n + 1 = ar.length - 1 ∨ x < array.read u ar (n + 1)))) := by
  induction fuel with
  | zero => intro a b hab _ hf; omega
  | succ f ih =>
    intro a b hab hb hf hlo hhi
    unfold linsearchLoop
    by_cases hgap : (b : Int) - a > 1
    · have hm1 : a < (a + b) / 2 := by omega
      have hm2 : (a + b) / 2 < b := by omega
      simp only [hgap, if_true, tdiv_two, Int.toNat_ofNat]
      by_cases heq : array.read u ar ((a + b) / 2) = x
      · exact ⟨(a + b) / 2, by simp [heq], le_of_lt hm1, hm2, Or.inl heq⟩
      · by_cases hgt : x > array.read u ar ((a + b) / 2)
        · obtain ⟨n, hn, h1, h2, h3⟩ :=
            ih ((a + b) / 2) b hm2 hb (by omega) (Or.inr hgt) hhi
          exact ⟨n, by rw [if_neg heq, if_pos hgt]; exact hn, by omega, h2, h3⟩
        · have hlt : x < array.read u ar ((a + b) / 2) :=
            lt_of_le_of_ne (le_of_not_lt hgt) (fun e => heq e.symm)
          obtain ⟨n, hn, h1, h2, h3⟩ :=
            ih a ((a + b) / 2) hm1 (by omega) (by omega) hlo (Or.inr hlt)
          exact ⟨n, by rw [if_neg heq, if_neg hgt]; exact hn, h1, by omega, h3⟩
    · have hb1 : b = a + 1 := by omega
      subst hb1
      exact ⟨a, by simp [hgap], le_refl _, Nat.lt_succ_self _, Or.inr ⟨hlo, hhi⟩⟩

/-- C18: on a strictly increasing array of length at least two `linsearch` returns, for
every query `q`, an index `n ≤ len - 2`. If `ar[0] ≤ q ≤ ar[len-1]` then
`ar[n] ≤ q ≤ ar[n+1]` and no larger index up to `len - 2` has that property; if
`q < ar[0]` the index is `0`; if `q > ar[len-1]` the index is `len - 2`. -/
theorem C18_linsearch (u : Indeterminate) (ar : List ℚ) (q : ℚ)
    (hs : ar.Pairwise (· < ·)) (hlen : 2 ≤ ar.length) :
    ∃ n : Nat, linsearch u ar q = some (n : Int) ∧ n ≤ ar.length - 2 ∧
      (array.read u ar 0 ≤ q → q ≤ array.read u ar (ar.length - 1) →
        array.read u ar n ≤ q ∧ q ≤ array.read u ar (n + 1) ∧
        ∀ m : Nat, m ≤ ar.length - 2 → array.read u ar m ≤ q →
          q ≤ array.read u ar (m + 1) → m ≤ n) ∧
      (q < array.read u ar 0 → n = 0) ∧
      (array.read u ar (ar.length - 1) < q → n = ar.length - 2) := by
  have hcast : (ar.length : Int) - 1 = ((ar.length - 1 : Nat) : Int) := by omega
  obtain ⟨n, hn, _, h2, h3⟩ :=
    linsearchLoop_bounds u ar q (ar.length + 1) 0 (ar.length - 1) (by omega) (by omega)
      (by omega) (Or.inl rfl) (Or.inl rfl)
  have hnlt : array.read u ar n < array.read u ar (n + 1) :=
    read_lt_of_pairwise u ar hs n (n + 1) (Nat.lt_succ_self _) (by omega)
  refine ⟨n, by unfold linsearch; rw [hcast]; simpa using hn, by omega, ?_, ?_, ?_⟩
  · intro hlo hhi
    refine ⟨?_, ?_, ?_⟩
    · rcases h3 with e | ⟨h | h, _⟩
      · exact le_of_eq e
      · rw [h]; exact hlo
      · exact le_of_lt h
    · rcases h3 with e | ⟨_, h | h⟩
      · rw [← e]; exact le_of_lt hnlt
      · rw [h]; exact hhi
      · exact le_of_lt h
    · intro m hm hm1 hm2
      by_contra hcon
      have hnm : n + 1 ≤ m := by omega
      have hle : array.read u ar (n + 1) ≤ array.read u ar m :=
        read_le_of_pairwise u ar hs (n + 1) m hnm (by omega)
      rcases h3 with e | ⟨_, h | h⟩
      · rw [← e] at hm1
        exact absurd (lt_of_lt_of_le hnlt hle) (not_lt.mpr hm1)
      · omega
      · exact absurd (lt_of_lt_of_le h hle) (not_lt.mpr hm1)
  · intro hq
    have h0n : array.read u ar 0 ≤ array.read u ar n :=
      read_le_of_pairwise u ar hs 0 n (Nat.zero_le _) (by omega)
    rcases h3 with e | ⟨h | h, _⟩
    · rw [e] at h0n
      exact absurd hq (not_lt.mpr h0n)
    · exact h
    · exact absurd (lt_trans h hq) (not_lt.mpr h0n)
  · intro hq
    have hnl : array.read u ar (n + 1) ≤ array.read u ar (ar.length - 1) :=
      read_le_of_pairwise u ar hs (n + 1) (ar.length - 1) (by omega) (by omega)
    rcases h3 with e | ⟨_, h | h⟩
    · rw [← e] at hq
      exact absurd (lt_of_le_of_lt hnl hq) (not_lt.mpr (le_of_lt hnlt))
    · omega
    · exact absurd (lt_of_lt_of_le h hnl) (not_lt.mpr (le_of_lt hq))

/-- C18, at the x-values of the documentation table and the query `1.5`. -/
theorem C18_linsearch_witness :
    ∃ n : Nat, linsearch zeroed [0, 1, 2, 3] (3 / 2) = some (n : Int) ∧
      n ≤ [(0 : ℚ), 1, 2, 3].length - 2 ∧
      (array.read zeroed [0, 1, 2, 3] 0 ≤ 3 / 2 →
        3 / 2 ≤ array.read zeroed [0, 1, 2, 3] ([(0 : ℚ), 1, 2, 3].length - 1) →
        array.read zeroed [0, 1, 2, 3] n ≤ 3 / 2 ∧
        3 / 2 ≤ array.read zeroed [0, 1, 2, 3] (n + 1) ∧
        ∀ m : Nat, m ≤ [(0 : ℚ), 1, 2, 3].length - 2 →
          array.read zeroed [0, 1, 2, 3] m ≤ 3 / 2 →
          3 / 2 ≤ array.read zeroed [0, 1, 2, 3] (m + 1) → m ≤ n) ∧
      (3 / 2 < array.read zeroed [0, 1, 2, 3] 0 → n = 0) ∧
      (array.read zeroed [0, 1, 2, 3] ([(0 : ℚ), 1, 2, 3].length - 1) < 3 / 2 →
        n = [(0 : ℚ), 1, 2, 3].length - 2) :=
  C18_linsearch zeroed [0, 1, 2, 3] (3 / 2) (by decide) (by decide)

end numericFunction

/-! ## Monotonicity of the interpolation -/

namespace numericFunction

open ustd

/-- The value on a segment, as a function of the query. -/
theorem segment_mono (xa xb ya yb q1 q2 : ℚ) (hx : xa < xb) (hy : ya ≤ yb) (hq : q1 ≤ q2) :
    ya + (yb - ya) * (q1 - xa) / (xb - xa) ≤ ya + (yb - ya) * (q2 - xa) / (xb - xa) := by
  have hd : 0 < xb - xa := sub_pos.mpr hx
  have h1 : (yb - ya) * (q1 - xa) ≤ (yb - ya) * (q2 - xa) :=
    mul_le_mul_of_nonneg_left (by linarith) (by linarith)
  have h2 := (div_le_div_iff_of_pos_right hd).mpr h1
  linarith

theorem segment_at_left (xa xb ya yb : ℚ) :
    ya + (yb - ya) * (xa - xa) / (xb - xa) = ya := by
  simp

theorem segment_at_right (xa xb ya yb : ℚ) (hx : xa < xb) :
    ya + (yb - ya) * (xb - xa) / (xb - xa) = yb := by
  have hd : xb - xa ≠ 0 := sub_ne_zero.mpr (ne_of_gt hx)
  field_simp

/-- On a rising segment the value lies between the two ends. -/
theorem segment_between (xa xb ya yb q : ℚ) (hx : xa < xb) (hy : ya ≤ yb) (h1 : xa ≤ q)
    (h2 : q ≤ xb) :
    ya ≤ ya + (yb - ya) * (q - xa) / (xb - xa) ∧
      ya + (yb - ya) * (q - xa) / (xb - xa) ≤ yb := by
  have hl := segment_mono xa xb ya yb xa q hx hy h1
  have hr := segment_mono xa xb ya yb q xb hx hy h2
  rw [segment_at_left] at hl
  rw [segment_at_right xa xb ya yb hx] at hr
  exact ⟨hl, hr⟩

/-- The value on a falling segment is the negative of the value on the mirrored segment. -/
theorem segment_neg (xa xb ya yb q : ℚ) :
    ya + (yb - ya) * (q - xa) / (xb - xa) =
      -(-ya + (-yb - -ya) * (q - xa) / (xb - xa)) := by
  ring

theorem read_ge_of_pairwise (u : Indeterminate) (ar : List ℚ) (h : ar.Pairwise (· > ·))
    (i j : Nat) (hij : i ≤ j) (hj : j < ar.length) :
    array.read u ar j ≤ array.read u ar i := by
  rcases Nat.lt_or_eq_of_le hij with hlt | heq
  · rw [array.read_lt u ar i (by omega), array.read_lt u ar j hj]
    exact le_of_lt ((List.pairwise_iff_getElem.mp h) i j (by omega) hj hlt)
  · rw [heq]

/-- Two queries in the range, in order: the segments that the search finds for them are in
order as well, unless the two queries are the same number. -/
theorem Built.interpol_two {u : Indeterminate} {px py : Nat → ℚ} {n : Nat}
    {t : NumericFunction} (h : Built u px py n t) (h2 : 2 ≤ t.len) (q1 q2 : ℚ)
    (hlo : t.minX ≤ q1) (h12 : q1 ≤ q2) (hhi : q2 ≤ t.maxX) :
    q1 = q2 ∨ ∃ m1 m2 : Nat, m1 ≤ m2 ∧ m2 + 1 < t.len ∧
      array.read u t.x m1 ≤ q1 ∧ q1 ≤ array.read u t.x (m1 + 1) ∧
      array.read u t.x m2 ≤ q2 ∧ q2 ≤ array.read u t.x (m2 + 1) := by
  have hlx := h.lenx
  obtain ⟨m1, hm1, ha1, hb1, _⟩ := h.interpol_inside h2 q1 hlo (le_trans h12 hhi)
  obtain ⟨m2, hm2, ha2, hb2, _⟩ := h.interpol_inside h2 q2 (le_trans hlo h12) hhi
  rcases Nat.lt_or_ge m2 m1 with hlt | hge
  · left
    have hle : array.read u t.x (m2 + 1) ≤ array.read u t.x m1 :=
      read_le_of_pairwise u t.x h.xs (m2 + 1) m1 hlt (by omega)
    linarith
  · right
    exact ⟨m1, m2, hge, hm2, ha1, hb1, ha2, hb2⟩

/-- Two segments in order, of a rising sequence of points: the values are in order. -/
theorem segments_mono (X Y : Nat → ℚ) (m1 m2 : Nat) (q1 q2 : ℚ) (hm : m1 ≤ m2)
    (hX1 : X m1 < X (m1 + 1)) (hX2 : X m2 < X (m2 + 1))
    (hY : ∀ i j, i ≤ j → j ≤ m2 + 1 → Y i ≤ Y j)
    (ha1 : X m1 ≤ q1) (hb1 : q1 ≤ X (m1 + 1)) (ha2 : X m2 ≤ q2) (hb2 : q2 ≤ X (m2 + 1))
    (h12 : q1 ≤ q2) :
    Y m1 + (Y (m1 + 1) - Y m1) * (q1 - X m1) / (X (m1 + 1) - X m1) ≤
      Y m2 + (Y (m2 + 1) - Y m2) * (q2 - X m2) / (X (m2 + 1) - X m2) := by
  rcases Nat.lt_or_eq_of_le hm with hlt | heq
  · have h1 := (segment_between (X m1) (X (m1 + 1)) (Y m1) (Y (m1 + 1)) q1 hX1
      (hY m1 (m1 + 1) (Nat.le_succ _) (by omega)) ha1 hb1).2
    have h2 := (segment_between (X m2) (X (m2 + 1)) (Y m2) (Y (m2 + 1)) q2 hX2
      (hY m2 (m2 + 1) (Nat.le_succ _) (le_refl _)) ha2 hb2).1
    exact le_trans h1 (le_trans (hY (m1 + 1) m2 hlt (Nat.le_succ _)) h2)
  · subst heq
    exact segment_mono (X m1) (X (m1 + 1)) (Y m1) (Y (m1 + 1)) q1 q2 hX1
      (hY m1 (m1 + 1) (Nat.le_succ _) (le_refl _)) h12

/-- The value on a segment of a constructed table lies between `minY` and `maxY`. -/
theorem Built.segment_bounds {u : Indeterminate} {px py : Nat → ℚ} {n : Nat}
    {t : NumericFunction} (h : Built u px py n t) (k : Nat) (hk : k + 1 < t.len) (q : ℚ)
    (h1 : array.read u t.x k ≤ q) (h2 : q ≤ array.read u t.x (k + 1)) :
    t.minY ≤ array.read u t.y k +
        (array.read u t.y (k + 1) - array.read u t.y k) * (q - array.read u t.x k) /
          (array.read u t.x (k + 1) - array.read u t.x k) ∧
      array.read u t.y k +
        (array.read u t.y (k + 1) - array.read u t.y k) * (q - array.read u t.x k) /
          (array.read u t.x (k + 1) - array.read u t.x k) ≤ t.maxY := by
  have hlx := h.lenx
  have hly := h.leny
  have hxk : array.read u t.x k < array.read u t.x (k + 1) :=
    read_lt_of_pairwise u t.x h.xs k (k + 1) (Nat.lt_succ_self _) (by omega)
  have hy0 := array.read_mem u t.y k (by omega)
  have hy1 := array.read_mem u t.y (k + 1) (by omega)
  have hmin0 := h.miny.2 _ hy0
  have hmin1 := h.miny.2 _ hy1
  have hmax0 := h.maxy.2 _ hy0
  have hmax1 := h.maxy.2 _ hy1
  rcases le_total (array.read u t.y k) (array.read u t.y (k + 1)) with hle | hge
  · obtain ⟨ha, hb⟩ := segment_between _ _ _ _ q hxk hle h1 h2
    exact ⟨le_trans hmin0 ha, le_trans hb hmax1⟩
  · obtain ⟨ha, hb⟩ := segment_between (array.read u t.x k) (array.read u t.x (k + 1))
      (-array.read u t.y k) (-array.read u t.y (k + 1)) q hxk (neg_le_neg hge) h1 h2
    rw [segment_neg]
    constructor
    · linarith
    · linarith

/-- C20: on a table left by the constructor with at least two accepted points, for
queries `minX ≤ q1 ≤ q2 ≤ maxX` both calls of `interpol` return a value, the two values
are in the order of the queries when `dir` is true and in the opposite order when `dir` is
false, and both lie between `minY` and `maxY`. -/
theorem C20_interpol_monotonic (u : Indeterminate) (px py : Nat → ℚ) (count : Nat)
    (ex : Bool) (q1 q2 : ℚ) (h2 : 2 ≤ (numericFunction u px py count ex).len)
    (hlo : (numericFunction u px py count ex).minX ≤ q1) (h12 : q1 ≤ q2)
    (hhi : q2 ≤ (numericFunction u px py count ex).maxX) :
    ∃ v1 v2 : ℚ, interpol u (numericFunction u px py count ex) q1 = some v1 ∧
      interpol u (numericFunction u px py count ex) q2 = some v2 ∧
      ((numericFunction u px py count ex).dir = true → v1 ≤ v2) ∧
      ((numericFunction u px py count ex).dir = false → v2 ≤ v1) ∧
      (numericFunction u px py count ex).minY ≤ v1 ∧
      v1 ≤ (numericFunction u px py count ex).maxY ∧
      (numericFunction u px py count ex).minY ≤ v2 ∧
      v2 ≤ (numericFunction u px py count ex).maxY := by
  have hB := built_of_len u px py count ex (by omega)
  generalize numericFunction u px py count ex = t at *
  have hlx := hB.lenx
  have hly := hB.leny
  obtain ⟨k1, hk1, hka1, hkb1, _⟩ := hB.interpol_inside h2 q1 hlo (le_trans h12 hhi)
  obtain ⟨k2, hk2, hka2, hkb2, _⟩ := hB.interpol_inside h2 q2 (le_trans hlo h12) hhi
  have e1 := hB.interpol_segment h2 q1 hlo (le_trans h12 hhi) k1 hk1 hka1 hkb1
  have e2 := hB.interpol_segment h2 q2 (le_trans hlo h12) hhi k2 hk2 hka2 hkb2
  obtain ⟨b1, b2⟩ := hB.segment_bounds k1 hk1 q1 hka1 hkb1
  obtain ⟨b3, b4⟩ := hB.segment_bounds k2 hk2 q2 hka2 hkb2
  refine ⟨_, _, e1, e2, ?_, ?_, b1, b2, b3, b4⟩
  · intro hd
    rcases hB.interpol_two h2 q1 q2 hlo h12 hhi with heq | ⟨m1, m2, hm, hm2, ha1, hb1, ha2, hb2⟩
    · subst heq
      rw [e1] at e2
      exact le_of_eq (Option.some.inj e2)
    · have f1 := hB.interpol_segment h2 q1 hlo (le_trans h12 hhi) m1 (by omega) ha1 hb1
      have f2 := hB.interpol_segment h2 q2 (le_trans hlo h12) hhi m2 hm2 ha2 hb2
      rw [e1] at f1
      rw [e2] at f2
      rw [Option.some.inj f1, Option.some.inj f2]
      have hup := hB.ysUp (Or.inl hd)
      exact segments_mono (array.read u t.x) (array.read u t.y) m1 m2 q1 q2 hm
        (read_lt_of_pairwise u t.x hB.xs m1 (m1 + 1) (Nat.lt_succ_self _) (by omega))
        (read_lt_of_pairwise u t.x hB.xs m2 (m2 + 1) (Nat.lt_succ_self _) (by omega))
        (fun i j hij hj => read_le_of_pairwise u t.y hup i j hij (by omega))
        ha1 hb1 ha2 hb2 h12
  · intro hd
    rcases hB.interpol_two h2 q1 q2 hlo h12 hhi with heq | ⟨m1, m2, hm, hm2, ha1, hb1, ha2, hb2⟩
    · subst heq
      rw [e1] at e2
      exact le_of_eq (Option.some.inj e2).symm
    · have f1 := hB.interpol_segment h2 q1 hlo (le_trans h12 hhi) m1 (by omega) ha1 hb1
      have f2 := hB.interpol_segment h2 q2 (le_trans hlo h12) hhi m2 hm2 ha2 hb2
      rw [e1] at f1
      rw [e2] at f2
      rw [Option.some.inj f1, Option.some.inj f2]
      have hdown := hB.ysDown (Or.inl hd)
      have hneg := segments_mono (array.read u t.x) (fun i => -array.read u t.y i) m1 m2 q1 q2
        hm
        (read_lt_of_pairwise u t.x hB.xs m1 (m1 + 1) (Nat.lt_succ_self _) (by omega))
        (read_lt_of_pairwise u t.x hB.xs m2 (m2 + 1) (Nat.lt_succ_self _) (by omega))
        (fun i j hij hj => neg_le_neg (read_ge_of_pairwise u t.y hdown i j hij (by omega)))
        ha1 hb1 ha2 hb2 h12
      rw [segment_neg _ _ _ _ q1, segment_neg _ _ _ _ q2]
      exact neg_le_neg hneg

/-- C20, at the table of the documentation and the queries `0.5` and `2.5`. -/
theorem C20_interpol_monotonic_witness :
    ∃ v1 v2 : ℚ, interpol zeroed (numericFunction zeroed cx cy 4 true) (1 / 2) = some v1 ∧
      interpol zeroed (numericFunction zeroed cx cy 4 true) (5 / 2) = some v2 ∧
      ((numericFunction zeroed cx cy 4 true).dir = true → v1 ≤ v2) ∧
      ((numericFunction zeroed cx cy 4 true).dir = false → v2 ≤ v1) ∧
      (numericFunction zeroed cx cy 4 true).minY ≤ v1 ∧
      v1 ≤ (numericFunction zeroed cx cy 4 true).maxY ∧
      (numericFunction zeroed cx cy 4 true).minY ≤ v2 ∧
      v2 ≤ (numericFunction zeroed cx cy 4 true).maxY :=
  C20_interpol_monotonic zeroed cx cy 4 true (1 / 2) (5 / 2) (by decide!) (by decide!)
    (by decide!) (by decide!)

end numericFunction

/-! ## Rescaling and the table invariants -/

namespace numericFunction

open ustd

/-- The map that `rescale` applies keeps the order when the new range has positive
width. -/
theorem rescale_map_lt (lo d a b v w : ℚ) (hd : 0 < d) (hab : a < b) (hvw : v < w) :
    (v - lo) / d * (b - a) + a < (w - lo) / d * (b - a) + a := by
  have h1 : (v - lo) / d < (w - lo) / d := (div_lt_div_iff_of_pos_right hd).mpr (by linarith)
  have h2 : 0 < b - a := sub_pos.mpr hab
  nlinarith

theorem rescale_dx_pos (k : Nat) (lo hi : ℚ) (h : lo ≤ hi) :
    (0 : ℚ) < if k < 2 ∨ lo = hi then 1 else hi - lo := by
  split_ifs with hc
  · exact one_pos
  · have hne : ¬ lo = hi := fun e => hc (Or.inr e)
    exact sub_pos.mpr (lt_of_le_of_ne h hne)

/-- C19, amended: in exact arithmetic, for every table left by the constructor and every
`newMin < newMax`, the stored `x` is strictly increasing after
`rescaleX(newMin, newMax)`, and after `rescaleY(newMin, newMax)` the stored `y` of a table
with at least two points is strictly increasing when `dir` is true and strictly decreasing
when `dir` is false. -/
theorem C19_rescale_keeps_order (u : Indeterminate) (px py : Nat → ℚ) (count : Nat)
    (ex : Bool) (newMin newMax : ℚ) (hlt : newMin < newMax) :
    (rescaleX u (numericFunction u px py count ex) newMin newMax).x.Pairwise (· < ·) ∧
    (2 ≤ (rescaleY u (numericFunction u px py count ex) newMin newMax).len →
      ((rescaleY u (numericFunction u px py count ex) newMin newMax).dir = true →
        (rescaleY u (numericFunction u px py count ex) newMin newMax).y.Pairwise (· < ·)) ∧
      ((rescaleY u (numericFunction u px py count ex) newMin newMax).dir = false →
        (rescaleY u (numericFunction u px py count ex) newMin newMax).y.Pairwise
          (· > ·))) := by
  rcases Nat.eq_zero_or_pos count with h0 | hpos
  · subst h0
    rw [numericFunction_zero]
    simp [rescaleX, rescaleY, rescale, ctorInit]
  · have hB := built u px py count ex hpos
    generalize numericFunction u px py count ex = t at *
    have hdx := rescale_dx_pos t.x.length t.minX t.maxX hB.minX_le_maxX
    have hdy := rescale_dx_pos t.y.length t.minY t.maxY (hB.miny.2 _ hB.maxy.1)
    refine ⟨?_, fun _ => ⟨fun hd => ?_, fun hd => ?_⟩⟩
    · simp only [rescaleX]
      rw [rescale_fst]
      exact List.Pairwise.map _ (fun v w hvw => rescale_map_lt _ _ _ _ v w hdx hlt hvw) hB.xs
    · simp only [rescaleY] at hd ⊢
      rw [rescale_fst]
      exact List.Pairwise.map _ (fun v w hvw => rescale_map_lt _ _ _ _ v w hdy hlt hvw)
        (hB.ysUp (Or.inl hd))
    · simp only [rescaleY] at hd ⊢
      rw [rescale_fst]
      exact List.Pairwise.map _ (fun v w hvw => rescale_map_lt _ _ _ _ w v hdy hlt hvw)
        (hB.ysDown (Or.inl hd))

/-- C19 amended, at the table of the documentation rescaled to the range from 10 to 20. -/
theorem C19_rescale_keeps_order_witness :
    (rescaleX zeroed (numericFunction zeroed cx cy 4 true) 10 20).x.Pairwise (· < ·) ∧
    (2 ≤ (rescaleY zeroed (numericFunction zeroed cx cy 4 true) 10 20).len →
      ((rescaleY zeroed (numericFunction zeroed cx cy 4 true) 10 20).dir = true →
        (rescaleY zeroed (numericFunction zeroed cx cy 4 true) 10 20).y.Pairwise (· < ·)) ∧
      ((rescaleY zeroed (numericFunction zeroed cx cy 4 true) 10 20).dir = false →
        (rescaleY zeroed (numericFunction zeroed cx cy 4 true) 10 20).y.Pairwise
          (· > ·))) :=
  C19_rescale_keeps_order zeroed cx cy 4 true 10 20 (by decide)

/-- C19 as stated fails: on the table of the documentation `rescaleX(1, 0)` turns `x` into
`1, 2/3, 1/3, 0`, which is not increasing, and `rescaleY(1, 0)` turns `y` into
`0, 3/4, 31/40, 1`, which is not decreasing although `dir` is still false. With
`newMin < newMax` it fails by rounding: for `T_FLOAT = double` the table with the x-values
`0, 1e-30, 1` keeps all three points, and `rescaleX(1, 2)` turns `x` into `1, 1, 2`,
because `1e-30 + 1` rounds to `1`. -/
theorem C19_rescale_reverses_order :
    (rescaleX zeroed (numericFunction zeroed cx cy 4 true) 1 0).x = [1, 2 / 3, 1 / 3, 0] ∧
    ¬ (rescaleX zeroed (numericFunction zeroed cx cy 4 true) 1 0).x.Pairwise (· < ·) ∧
    (rescaleY zeroed (numericFunction zeroed cx cy 4 true) 1 0).y =
      [0, 3 / 4, 31 / 40, 1] ∧
    (rescaleY zeroed (numericFunction zeroed cx cy 4 true) 1 0).dir = false ∧
    (rescaleY zeroed (numericFunction zeroed cx cy 4 true) 1 0).len = 4 ∧
    ¬ (rescaleY zeroed (numericFunction zeroed cx cy 4 true) 1 0).y.Pairwise (· > ·) ∧
    (machine.numericFunction.numericFunction machine.zeroed
      (machine.carray [machine.double 0, machine.double (1 / 10 ^ 30), machine.double 1])
      (machine.carray [machine.double 0, machine.double 1, machine.double 2]) 3 false).x =
      [machine.double 0, machine.double (1 / 10 ^ 30), machine.double 1] ∧
    (machine.numericFunction.rescaleX 53 machine.zeroed
      (machine.numericFunction.numericFunction machine.zeroed
        (machine.carray [machine.double 0, machine.double (1 / 10 ^ 30), machine.double 1])
        (machine.carray [machine.double 0, machine.double 1, machine.double 2]) 3 false)
      (machine.double 1) (machine.double 2)).x =
      [machine.Num.num 1, machine.Num.num 1, machine.Num.num 2] ∧
    ¬ (machine.numericFunction.rescaleX 53 machine.zeroed
      (machine.numericFunction.numericFunction machine.zeroed
        (machine.carray [machine.double 0, machine.double (1 / 10 ^ 30), machine.double 1])
        (machine.carray [machine.double 0, machine.double 1, machine.double 2]) 3 false)
      (machine.double 1) (machine.double 2)).x.Pairwise
        (fun a b => machine.Num.lt a b = true) := by
  refine ⟨by decide!, by decide!, by decide!, by decide!, by decide!, by decide!, by decide!,
    by decide!, by decide!⟩

/-- C11: the table built from the points (2,1), (3,2), (4,4) with extrapolate = false.
After `rescaleX(0, 1)` the stored `x` is `0, 1/2, 1` but `minX` and `maxX` are still `2`
and `4`, so the query `1` is taken to lie below the table and `interpol(1)` is
`y[0] = 1`, not the original `y[len-1] = 4`. -/
theorem C11_rescaled_table_uses_old_bounds :
    (numericFunction zeroed (fun i => [2, 3, 4].getD i 0) (fun i => [1, 2, 4].getD i 0) 3
      false).len = 3 ∧
    array.read zeroed (numericFunction zeroed (fun i => [2, 3, 4].getD i 0)
      (fun i => [1, 2, 4].getD i 0) 3 false).y 2 = 4 ∧
    (rescaleX zeroed (numericFunction zeroed (fun i => [2, 3, 4].getD i 0)
      (fun i => [1, 2, 4].getD i 0) 3 false) 0 1).x = [0, 1 / 2, 1] ∧
    (rescaleX zeroed (numericFunction zeroed (fun i => [2, 3, 4].getD i 0)
      (fun i => [1, 2, 4].getD i 0) 3 false) 0 1).minX = 2 ∧
    (rescaleX zeroed (numericFunction zeroed (fun i => [2, 3, 4].getD i 0)
      (fun i => [1, 2, 4].getD i 0) 3 false) 0 1).maxX = 4 ∧
    interpol zeroed (rescaleX zeroed (numericFunction zeroed (fun i => [2, 3, 4].getD i 0)
      (fun i => [1, 2, 4].getD i 0) 3 false) 0 1) 1 = some 1 := by
  refine ⟨by decide!, by decide!, by decide!, by decide!, by decide!, by decide!⟩

end numericFunction

/-! ## The value filter -/

namespace sensorprocessor

open ustd

/-- The distance that `filter` compares with `eps`. -/
theorem delta_eq_abs (d : ℚ) : (if d < 0 then (-1) * d else d) = |d| := by
  split_ifs with h
  · rw [abs_of_neg h]; ring
  · rw [abs_of_nonneg (le_of_not_lt h)]

/-- The three ways through `filter`: accepted by the change of the mean or as the first
call, accepted by the poll time, or not accepted. -/
theorem filter_cases (s : Sensorprocessor) (v : ℚ) (now : Nat) :
    ((|s.lastVal - (s.meanVal * s.noVals + v) / (s.noVals + 1)| > s.eps ∨ s.first = true) ∧
      filter s v now =
        (true, (s.meanVal * s.noVals + v) / (s.noVals + 1),
          { s with meanVal := (s.meanVal * s.noVals + v) / (s.noVals + 1),
                   noVals := if s.noVals < s.smoothInterval then s.noVals + 1 else s.noVals,
                   first := false,
                   lastVal := (s.meanVal * s.noVals + v) / (s.noVals + 1),
                   last := now })) ∨
    (¬ (|s.lastVal - (s.meanVal * s.noVals + v) / (s.noVals + 1)| > s.eps ∨ s.first = true) ∧
      (s.pollTimeSec ≠ 0 ∧ now - s.last > s.pollTimeSec * 1000) ∧
      filter s v now =
        (true, (s.meanVal * s.noVals + v) / (s.noVals + 1),
          { s with meanVal := (s.meanVal * s.noVals + v) / (s.noVals + 1),
                   noVals := if s.noVals < s.smoothInterval then s.noVals + 1 else s.noVals,
                   lastVal := (s.meanVal * s.noVals + v) / (s.noVals + 1),
                   last := now })) ∨
    (¬ (|s.lastVal - (s.meanVal * s.noVals + v) / (s.noVals + 1)| > s.eps ∨ s.first = true) ∧
      ¬ (s.pollTimeSec ≠ 0 ∧ now - s.last > s.pollTimeSec * 1000) ∧
      filter s v now =
        (false, v,
          { s with meanVal := (s.meanVal * s.noVals + v) / (s.noVals + 1),
                   noVals :=
                     if s.noVals < s.smoothInterval then s.noVals + 1 else s.noVals })) := by
  simp only [filter, delta_eq_abs, timeDiff]
  by_cases h1 : |s.lastVal - (s.meanVal * s.noVals + v) / (s.noVals + 1)| > s.eps ∨
      s.first = true
  · left
    exact ⟨h1, by rw [if_pos h1]⟩
  · right
    by_cases h2 : s.pollTimeSec ≠ 0 ∧ now - s.last > s.pollTimeSec * 1000
    · left
      exact ⟨h1, h2, by rw [if_neg h1, if_pos h2]⟩
    · right
      exact ⟨h1, h2, by rw [if_neg h1, if_neg h2]⟩

/-- The running mean after a call of `filter`. -/
theorem filter_meanVal (s : Sensorprocessor) (v : ℚ) (now : Nat) :
    (filter s v now).2.2.meanVal = (s.meanVal * s.noVals + v) / (s.noVals + 1) := by
  rcases filter_cases s v now with ⟨_, e⟩ | ⟨_, _, e⟩ | ⟨_, _, e⟩ <;> rw [e]

/-- The sample count after a call of `filter`. -/
theorem filter_noVals (s : Sensorprocessor) (v : ℚ) (now : Nat) :
    (filter s v now).2.2.noVals =
      if s.noVals < s.smoothInterval then s.noVals + 1 else s.noVals := by
  rcases filter_cases s v now with ⟨_, e⟩ | ⟨_, _, e⟩ | ⟨_, _, e⟩ <;> rw [e]

/-- The parameters and `sum` after a call of `filter`. -/
theorem filter_params (s : Sensorprocessor) (v : ℚ) (now : Nat) :
    (filter s v now).2.2.smoothInterval = s.smoothInterval ∧
    (filter s v now).2.2.pollTimeSec = s.pollTimeSec ∧
    (filter s v now).2.2.eps = s.eps ∧
    (filter s v now).2.2.sum = s.sum := by
  rcases filter_cases s v now with ⟨_, e⟩ | ⟨_, _, e⟩ | ⟨_, _, e⟩ <;> rw [e] <;>
    exact ⟨rfl, rfl, rfl, rfl⟩

/-- A call of `filter` that returns false. -/
theorem filter_false (s : Sensorprocessor) (v : ℚ) (now : Nat)
    (h : (filter s v now).1 = false) :
    (filter s v now).2.1 = v ∧
    (filter s v now).2.2.lastVal = s.lastVal ∧
    (filter s v now).2.2.last = s.last ∧
    (filter s v now).2.2.first = s.first := by
  rcases filter_cases s v now with ⟨_, e⟩ | ⟨_, _, e⟩ | ⟨_, _, e⟩
  · rw [e] at h; exact absurd h (by simp)
  · rw [e] at h; exact absurd h (by simp)
  · rw [e]; exact ⟨rfl, rfl, rfl, rfl⟩

/-- A call of `filter` that returns true. -/
theorem filter_true (s : Sensorprocessor) (v : ℚ) (now : Nat)
    (h : (filter s v now).1 = true) :
    (filter s v now).2.1 = (filter s v now).2.2.meanVal ∧
    (filter s v now).2.2.lastVal = (filter s v now).2.2.meanVal ∧
    (filter s v now).2.2.last = now ∧
    (filter s v now).2.2.first = false := by
  rcases filter_cases s v now with ⟨_, e⟩ | ⟨h1, _, e⟩ | ⟨_, _, e⟩
  · rw [e]; exact ⟨rfl, rfl, rfl, rfl⟩
  · rw [e]
    refine ⟨rfl, rfl, rfl, ?_⟩
    cases hf : s.first
    · rfl
    · exact absurd (Or.inr hf) h1
  · rw [e] at h; exact absurd h (by simp)

/-- C14: at every clock reading `reset()` leaves exactly the object that the constructor
builds with the same three parameters at that reading, and `update(s, p, e)` leaves exactly
the object that the constructor builds with `(s, p, e)`; so every following sequence of
`filter` calls gives the same return values, the same output values and the same final
object as on the newly constructed filter. -/
theorem C14_reset_and_update_reconstruct (u : Indeterminate) (s : Sensorprocessor)
    (now : Nat) (smoothInterval pollTimeSec : Nat) (eps : ℚ) (calls : List (ℚ × Nat)) :
    reset s now = sensorprocessor u s.smoothInterval s.pollTimeSec s.eps now ∧
    update s smoothInterval pollTimeSec eps now =
      sensorprocessor u smoothInterval pollTimeSec eps now ∧
    filterAll (reset s now) calls =
      filterAll (sensorprocessor u s.smoothInterval s.pollTimeSec s.eps now) calls ∧
    filterAll (update s smoothInterval pollTimeSec eps now) calls =
      filterAll (sensorprocessor u smoothInterval pollTimeSec eps now) calls := by
  have h1 : reset s now = sensorprocessor u s.smoothInterval s.pollTimeSec s.eps now := by
    simp [reset, sensorprocessor]
  have h2 : update s smoothInterval pollTimeSec eps now =
      sensorprocessor u smoothInterval pollTimeSec eps now := by
    simp [update, reset, sensorprocessor]
  exact ⟨h1, h2, by rw [h1], by rw [h2]⟩

/-- The sample count and the cap after one call of either overload. -/
theorem call_noVals (s : Sensorprocessor) (c : Call) :
    (call s c).noVals = (if s.noVals < s.smoothInterval then s.noVals + 1 else s.noVals) ∧
      (call s c).smoothInterval = s.smoothInterval := by
  cases c with
  | double value now =>
    exact ⟨filter_noVals s value now, (filter_params s value now).1⟩
  | long value now =>
    have hst : (filterLong s value now).2.2 = (filter s (value : ℚ) now).2.2 := by
      simp only [filterLong]
      by_cases hr : (filter s (value : ℚ) now).1 = true
      · rw [if_pos hr]
      · rw [if_neg hr]
    simp only [call, hst]
    exact ⟨filter_noVals s _ now, (filter_params s _ now).1⟩

/-- The sample count after a sequence of calls: it rises by one per call up to the cap. -/
theorem calls_noVals (cs : List Call) :
    ∀ s : Sensorprocessor, s.noVals ≤ s.smoothInterval →
      (cs.foldl call s).noVals = min (s.noVals + cs.length) s.smoothInterval ∧
        (cs.foldl call s).smoothInterval = s.smoothInterval := by
  induction cs with
  | nil =>
    intro s hs
    simp [hs]
  | cons c cs ih =>
    intro s hs
    obtain ⟨h1, h2⟩ := call_noVals s c
    have hle : (call s c).noVals ≤ (call s c).smoothInterval := by
      rw [h1, h2]; split_ifs <;> omega
    obtain ⟨i1, i2⟩ := ih (call s c) hle
    simp only [List.foldl_cons, List.length_cons]
    rw [i1, i2, h1, h2]
    refine ⟨?_, rfl⟩
    split_ifs with hc
    · congr 1; omega
    · have : s.noVals = s.smoothInterval := by omega
      rw [Nat.min_eq_right (by omega), Nat.min_eq_right (by omega)]

/-- C16: `noVals ≤ smoothInterval` holds after the constructor, after `reset` and after
`update`, and a call of either overload of `filter` keeps it; after `k` calls that follow
a construction, a `reset` or an `update`, `noVals` is the smaller of `k` and
`smoothInterval`. -/
theorem C16_noVals_saturates (u : Indeterminate) (smoothInterval pollTimeSec : Nat) (eps : ℚ)
    (now : Nat) (s : Sensorprocessor) (cs : List Call) :
    (sensorprocessor u smoothInterval pollTimeSec eps now).noVals ≤
      (sensorprocessor u smoothInterval pollTimeSec eps now).smoothInterval ∧
    (reset s now).noVals ≤ (reset s now).smoothInterval ∧
    (update s smoothInterval pollTimeSec eps now).noVals ≤
      (update s smoothInterval pollTimeSec eps now).smoothInterval ∧
    (∀ c : Call, s.noVals ≤ s.smoothInterval →
      (call s c).noVals ≤ (call s c).smoothInterval) ∧
    (cs.foldl call (sensorprocessor u smoothInterval pollTimeSec eps now)).noVals =
      min cs.length smoothInterval ∧
    (cs.foldl call (reset s now)).noVals = min cs.length s.smoothInterval ∧
    (cs.foldl call (update s smoothInterval pollTimeSec eps now)).noVals =
      min cs.length smoothInterval := by
  refine ⟨Nat.zero_le _, Nat.zero_le _, Nat.zero_le _, ?_, ?_, ?_, ?_⟩
  · intro c hs
    obtain ⟨h1, h2⟩ := call_noVals s c
    rw [h1, h2]; split_ifs <;> omega
  · have h := (calls_noVals cs (sensorprocessor u smoothInterval pollTimeSec eps now)
      (Nat.zero_le _)).1
    simpa [sensorprocessor, reset] using h
  · have h := (calls_noVals cs (reset s now) (Nat.zero_le _)).1
    simpa [reset] using h
  · have h := (calls_noVals cs (update s smoothInterval pollTimeSec eps now)
      (Nat.zero_le _)).1
    simpa [update, reset] using h

/-- C17: when `filter` returns false it leaves `lastVal`, the time of the last emission,
the first flag, the three parameters, `sum` and the caller's value as they were; when it
returns true, `lastVal` and the caller's value are the updated `meanVal` and the time of
the last emission is the clock reading of the call. The updated `meanVal` is
`(meanVal * noVals + value) / (noVals + 1)` in both cases. The overload for `long` leaves
the caller's integer and the same members as they were when it returns false. -/
theorem C17_filter_frame (s : Sensorprocessor) (value : ℚ) (lvalue : Int) (now : Nat) :
    ((filter s value now).1 = false →
      (filter s value now).2.1 = value ∧
      (filter s value now).2.2.lastVal = s.lastVal ∧
      (filter s value now).2.2.last = s.last ∧
      (filter s value now).2.2.first = s.first ∧
      (filter s value now).2.2.smoothInterval = s.smoothInterval ∧
      (filter s value now).2.2.pollTimeSec = s.pollTimeSec ∧
      (filter s value now).2.2.eps = s.eps ∧
      (filter s value now).2.2.sum = s.sum) ∧
    ((filter s value now).1 = true →
      (filter s value now).2.2.lastVal = (filter s value now).2.2.meanVal ∧
      (filter s value now).2.1 = (filter s value now).2.2.meanVal ∧
      (filter s value now).2.2.last = now) ∧
    (filter s value now).2.2.meanVal = (s.meanVal * s.noVals + value) / (s.noVals + 1) ∧
    ((filterLong s lvalue now).1 = false →
      (filterLong s lvalue now).2.1 = lvalue ∧
      (filterLong s lvalue now).2.2.lastVal = s.lastVal ∧
      (filterLong s lvalue now).2.2.last = s.last ∧
      (filterLong s lvalue now).2.2.first = s.first ∧
      (filterLong s lvalue now).2.2.smoothInterval = s.smoothInterval ∧
      (filterLong s lvalue now).2.2.pollTimeSec = s.pollTimeSec ∧
      (filterLong s lvalue now).2.2.eps = s.eps ∧
      (filterLong s lvalue now).2.2.sum = s.sum) := by
  refine ⟨?_, ?_, filter_meanVal s value now, ?_⟩
  · intro h
    obtain ⟨h1, h2, h3, h4⟩ := filter_false s value now h
    obtain ⟨p1, p2, p3, p4⟩ := filter_params s value now
    exact ⟨h1, h2, h3, h4, p1, p2, p3, p4⟩
  · intro h
    obtain ⟨h1, h2, h3, _⟩ := filter_true s value now h
    exact ⟨h2, h1, h3⟩
  · intro h
    simp only [filterLong] at h ⊢
    by_cases hr : (filter s (lvalue : ℚ) now).1 = true
    · rw [if_pos hr] at h
      exact absurd h (by simp)
    · rw [if_neg hr]
      have hf : (filter s (lvalue : ℚ) now).1 = false := by
        cases hb : (filter s (lvalue : ℚ) now).1
        · rfl
        · exact absurd hb hr
      obtain ⟨_, h2, h3, h4⟩ := filter_false s (lvalue : ℚ) now hf
      obtain ⟨p1, p2, p3, p4⟩ := filter_params s (lvalue : ℚ) now
      exact ⟨rfl, h2, h3, h4, p1, p2, p3, p4⟩

theorem filterAll_cons (s : Sensorprocessor) (c : ℚ × Nat) (rest : List (ℚ × Nat)) :
    filterAll s (c :: rest) =
      (((filter s c.1 c.2).1, (filter s c.1 c.2).2.1) ::
          (filterAll (filter s c.1 c.2).2.2 rest).1,
        (filterAll (filter s c.1 c.2).2.2 rest).2) := rfl

/-- The object after a sequence of calls of the overload for `double`. -/
theorem filterAll_eq_calls (calls : List (ℚ × Nat)) :
    ∀ s : Sensorprocessor,
      (filterAll s calls).2 = (calls.map (fun c => Call.double c.1 c.2)).foldl call s := by
  induction calls with
  | nil => intro s; rfl
  | cons c rest ih =>
    intro s
    rw [filterAll_cons]
    simp only [List.map_cons, List.foldl_cons, call]
    exact ih _

/-- C13, amended: with `smoothInterval = 1` the running mean after the first call of
`filter` on a newly constructed object is the raw value of that call, and after every
later call it is the mean of the previous running mean and the raw value of that call. -/
theorem C13_smoothInterval_one_halves (u : Indeterminate) (pollTimeSec : Nat) (eps : ℚ)
    (t0 : Nat) (calls : List (ℚ × Nat)) (value : ℚ) (now : Nat) :
    (filter (sensorprocessor u 1 pollTimeSec eps t0) value now).2.2.meanVal = value ∧
    (calls ≠ [] →
      (filter (filterAll (sensorprocessor u 1 pollTimeSec eps t0) calls).2 value
          now).2.2.meanVal =
        ((filterAll (sensorprocessor u 1 pollTimeSec eps t0) calls).2.meanVal + value) /
          2) := by
  constructor
  · rw [filter_meanVal]
    simp [sensorprocessor, reset]
  · intro hne
    have hn := (calls_noVals (calls.map (fun c => Call.double c.1 c.2))
      (sensorprocessor u 1 pollTimeSec eps t0) (Nat.zero_le _)).1
    rw [← filterAll_eq_calls] at hn
    have hlen : 1 ≤ calls.length := by
      cases calls with
      | nil => exact absurd rfl hne
      | cons c rest => simp
    have h1 : (filterAll (sensorprocessor u 1 pollTimeSec eps t0) calls).2.noVals = 1 := by
      rw [hn]
      simp only [sensorprocessor, reset, List.length_map, Nat.zero_add]
      exact Nat.min_eq_right hlen
    rw [filter_meanVal, h1]
    norm_num

/-- C13 as stated fails: with `smoothInterval = 1` and the raw values `10` and then `20`
the running mean after the second call is `15`, not `20`. -/
theorem C13_second_call_is_smoothed :
    (filter (filter (sensorprocessor numericFunction.zeroed 1 60 (1 / 10) 0) 10 0).2.2 20
      1).2.2.meanVal = 15 ∧
    (filter (filter (sensorprocessor numericFunction.zeroed 1 60 (1 / 10) 0) 10 0).2.2 20
      1).2.2.meanVal ≠ 20 := by
  refine ⟨by decide!, by decide!⟩

end sensorprocessor

/-! ## Where the machine parts from exact arithmetic -/

namespace machine

open sensorprocessor numericFunction

/-- C2 as stated fails. For `T_FLOAT = float` the table of the points `(0, 0)` and
`(3, 0.1)` keeps both points, and `interpol(3)` computes
`y[0] - (y[1] - y[0]) / (x[0] - x[1]) * (3 - x[0])` with every operation rounded: the result
is `6710887/67108864`, one step above the stored `y[1] = 13421773/134217728`. For
`T_FLOAT = double` and the table of the documentation `interpol(2)` finds `x[2] = 2` and
returns `y[2]` after the store in `float yi`: the result is `11744051/4194304`, not the
stored `y[2] = 3152519739159347/1125899906842624`. -/
theorem C2_samples_are_rounded :
    (numericFunction.numericFunction zeroed (carray [single 0, single 3])
      (carray [single 0, single (1 / 10)]) 2 false).x = [single 0, single 3] ∧
    (numericFunction.numericFunction zeroed (carray [single 0, single 3])
      (carray [single 0, single (1 / 10)]) 2 false).y = [single 0, single (1 / 10)] ∧
    single (1 / 10) = Num.num (13421773 / 134217728) ∧
    interpol 24 zeroed
      (numericFunction.numericFunction zeroed (carray [single 0, single 3])
        (carray [single 0, single (1 / 10)]) 2 false) (single 3) =
      some (Num.num (6710887 / 67108864)) ∧
    interpol 24 zeroed
      (numericFunction.numericFunction zeroed (carray [single 0, single 3])
        (carray [single 0, single (1 / 10)]) 2 false) (single 3) ≠
      some (single (1 / 10)) ∧
    (numericFunction.numericFunction zeroed
      (carray [double 0, double 1, double 2, double 3])
      (carray [double 9, double 3, double (14 / 5), double 1]) 4 false).y =
      [double 9, double 3, double (14 / 5), double 1] ∧
    double (14 / 5) = Num.num (3152519739159347 / 1125899906842624) ∧
    interpol 53 zeroed
      (numericFunction.numericFunction zeroed
        (carray [double 0, double 1, double 2, double 3])
        (carray [double 9, double 3, double (14 / 5), double 1]) 4 false) (double 2) =
      some (Num.num (11744051 / 4194304)) ∧
    interpol 53 zeroed
      (numericFunction.numericFunction zeroed
        (carray [double 0, double 1, double 2, double 3])
        (carray [double 9, double 3, double (14 / 5), double 1]) 4 false) (double 2) ≠
      some (double (14 / 5)) := by
  refine ⟨by decide!, by decide!, by decide!, by decide!, by decide!, by decide!, by decide!,
    by decide!, by decide!⟩

/-- C7: for the input `px = 0, NaN, 1`, `py = 0, 1, 2` the test `px[i] <= x[len-1]` is
false at `i = 1` and at `i = 2`, all three points are stored, and the stored `x` is not
strictly increasing. -/
theorem C7_nan_is_stored :
    (numericFunction.numericFunction zeroed (carray [Num.num 0, Num.nan, Num.num 1])
      (carray [Num.num 0, Num.num 1, Num.num 2]) 3 false).len = 3 ∧
    (numericFunction.numericFunction zeroed (carray [Num.num 0, Num.nan, Num.num 1])
      (carray [Num.num 0, Num.num 1, Num.num 2]) 3 false).x =
      [Num.num 0, Num.nan, Num.num 1] ∧
    (numericFunction.numericFunction zeroed (carray [Num.num 0, Num.nan, Num.num 1])
      (carray [Num.num 0, Num.num 1, Num.num 2]) 3 false).y =
      [Num.num 0, Num.num 1, Num.num 2] ∧
    ¬ (numericFunction.numericFunction zeroed (carray [Num.num 0, Num.nan, Num.num 1])
      (carray [Num.num 0, Num.num 1, Num.num 2]) 3 false).x.Pairwise
        (fun a b => Num.lt a b = true) := by
  refine ⟨by decide!, by decide!, by decide!, by decide!⟩

/-- The scenario of the specification in `double`: the filter `(10, 3600, 0.1)` fed `20`
and then nine times `20.05`, one second apart, returns true on the first call only, with
output `20`. -/
theorem scenario_in_double :
    filterAll nodeMCU (sensorprocessor.sensorprocessor 10 3600 (double (1 / 10)) 0 0)
        [(double 20, 0), (double (401 / 20), 1000), (double (401 / 20), 2000),
          (double (401 / 20), 3000), (double (401 / 20), 4000), (double (401 / 20), 5000),
          (double (401 / 20), 6000), (double (401 / 20), 7000), (double (401 / 20), 8000),
          (double (401 / 20), 9000)] =
      [(true, double 20), (false, double (401 / 20)), (false, double (401 / 20)),
        (false, double (401 / 20)), (false, double (401 / 20)), (false, double (401 / 20)),
        (false, double (401 / 20)), (false, double (401 / 20)), (false, double (401 / 20)),
        (false, double (401 / 20))] := by
  decide!

/-- The listing of the documentation in `float`, with the unwritten cell `x[4]` zero: the
table of the documentation gives `3 -> 1` exactly, and `3.2 -> 0.88` and `-0.3 -> 10.8`
up to the last printed digit. -/
theorem listing_in_float :
    interpol 24 zeroed
      (numericFunction.numericFunction zeroed
        (carray [single 0, single 1, single 2, single 3])
        (carray [single 9, single 3, single (14 / 5), single 1]) 4 true) (single 3) =
      some (Num.num 1) ∧
    (∃ v : ℚ, interpol 24 zeroed
      (numericFunction.numericFunction zeroed
        (carray [single 0, single 1, single 2, single 3])
        (carray [single 9, single 3, single (14 / 5), single 1]) 4 true)
      (single (16 / 5)) = some (Num.num v) ∧ |v - 22 / 25| < 1 / 10 ^ 6) ∧
    (∃ v : ℚ, interpol 24 zeroed
      (numericFunction.numericFunction zeroed
        (carray [single 0, single 1, single 2, single 3])
        (carray [single 9, single 3, single (14 / 5), single 1]) 4 true)
      (single (-3 / 10)) = some (Num.num v) ∧ |v - 54 / 5| < 1 / 10 ^ 6) := by
  refine ⟨by decide!, ⟨7381975 / 8388608, by decide!, by decide!⟩,
    ⟨11324621 / 1048576, by decide!, by decide!⟩⟩

end machine
